/-
Verification of the spateo preprocessing/segmentation core
(`em.py`, `label.py`): the negative-binomial EM estimator, the posterior
scorer, the sampler, and the instance-labeling pipeline.

Numeric values are embedded as rationals (`ℚ`); calls into external
libraries (scipy's NB pmf and digamma, numpy's RNG, skimage's
`expand_labels`, cv2's connected components and erosion) are taken as
explicit function parameters, with the repository's own control flow and
arithmetic translated directly from the source.
-/
import Mathlib

namespace Spateo

/-! ## The EM loop of `nbn_em` (em.py lines 72–111)

The per-iteration numeric update (E step + M step: `stats.nbinom.pmf`,
`special.digamma`, and the closed-form `w`/`lam`/`theta` updates) maps the
current parameter triple to the next one; it is abstracted as `step : P → P`
because its value at a point is transcendental.  The loop control flow —
the `prev_*` snapshots, the combined convergence/NaN `break`, and the final
`return (prev_w, …) if isnan else (w, …)` — is translated exactly.  In the
source, the local variable `isnan` is assigned only inside the `for` body,
so when `max_iter = 0` the trailing `return` raises a `NameError`; the
embedding returns `Except.error` in that case. -/

/-- The sequence of parameter triples produced by repeated EM updates:
`emStates step init k` is the parameter value after `k` iterations. -/
def emStates {P : Type} (step : P → P) (init : P) : ℕ → P
  | 0 => init
  | k + 1 => step (emStates step init k)

/-- The `for i in range(max_iter)` loop of `nbn_em`.  State is
`(prev, cur)`; the result records the final value of the Python local
`isnan` (`none` when the loop body never ran and `isnan` is unbound),
together with the final `prev` and current parameter values. -/
def emLoop {P : Type} (step : P → P) (isnanP : P → Bool) (convP : P → P → Bool) :
    ℕ → P → P → Option Bool × P × P
  | 0, prev, cur => (none, prev, cur)
  | n + 1, prev, cur =>
    let next := step cur
    let isn := isnanP next
    if convP next prev || isn then (some isn, prev, next)
    else
      let r := emLoop step isnanP convP n next next
      (some (r.1.getD isn), r.2.1, r.2.2)

/-- `nbn_em`: run the EM loop from the initial parameters and return
`(prev_w, lamtheta_to_r(prev_lam, prev_theta), prev_theta)` when NaN was
detected, the current parameters otherwise (`finalize` is the final
`lamtheta_to_r` conversion).  Reading the unbound `isnan` local when the
loop never ran is a Python `NameError`. -/
def nbnEm {P R : Type} (step : P → P) (isnanP : P → Bool) (convP : P → P → Bool)
    (finalize : P → R) (maxIter : ℕ) (init : P) : Except String R :=
  let r := emLoop step isnanP convP maxIter init init
  match r.1 with
  | none => .error "NameError: name isnan is not defined"
  | some true => .ok (finalize r.2.1)
  | some false => .ok (finalize r.2.2)

/-! ## The E step of `nbn_em` (em.py lines 74–84)

Per pixel: `tau[0] = w[0]*bp`, `tau[1] = w[1]*cp`, then the two forced
assignments for degenerate pixels (note the sum is re-read after the first
assignment, as in the source), then normalization.  The pmf values `bp`,
`cp` and the recomputed background mean `mu[0]` are inputs. -/

/-- The degeneracy threshold `1e-9` from em.py line 82. -/
def epsEM : ℚ := 1 / 1000000000

/-- `tau[0]` after the forced assignment
`tau[0][(tau.sum(axis=0) <= 1e-9) & (X < mu[0] * 2)] = 1`. -/
def forcedTau0 (w0 w1 mu0 x bp cp : ℚ) : ℚ :=
  if w0 * bp + w1 * cp ≤ epsEM ∧ x < mu0 * 2 then 1 else w0 * bp

/-- `tau[1]` after the forced assignment
`tau[1][(tau.sum(axis=0) <= 1e-9) & (X >= mu[0] * 2)] = 1`; the sum tested
here uses the already-updated `tau[0]` ("tau changes with each line"). -/
def forcedTau1 (w0 w1 mu0 x bp cp : ℚ) : ℚ :=
  if forcedTau0 w0 w1 mu0 x bp cp + w1 * cp ≤ epsEM ∧ ¬(x < mu0 * 2) then 1 else w1 * cp

/-- One pixel of the E step: forced assignments then `tau /= tau.sum(axis=0)`. -/
def estepPixel (w0 w1 mu0 x bp cp : ℚ) : ℚ × ℚ :=
  let t0 := forcedTau0 w0 w1 mu0 x bp cp
  let t1 := forcedTau1 w0 w1 mu0 x bp cp
  (t0 / (t0 + t1), t1 / (t0 + t1))

/-- The vectorized E step over a sample array and its two pmf arrays. -/
def estep (w0 w1 mu0 : ℚ) (X bp cp : List ℚ) : List (ℚ × ℚ) :=
  (X.zip (bp.zip cp)).map fun p => estepPixel w0 w1 mu0 p.1 p.2.1 p.2.2

/-! ### Lemmas about the EM loop -/

theorem emStates_shift {P : Type} (step : P → P) (init : P) (j : ℕ) :
    emStates step (step init) j = emStates step init (j + 1) := by
  induction j with
  | zero => rfl
  | succ j ih => simp [emStates, ih]

theorem emLoop_fst_isSome {P : Type} (step : P → P) (isnanP : P → Bool)
    (convP : P → P → Bool) (n : ℕ) (prev cur : P) :
    (emLoop step isnanP convP (n + 1) prev cur).1 ≠ none := by
  rw [emLoop]
  split <;> simp

theorem emLoop_nan {P : Type} (step : P → P) (isnanP : P → Bool) (convP : P → P → Bool) :
    ∀ (k n : ℕ) (init : P), k < n →
      (∀ j, j < k → convP (emStates step init (j + 1)) (emStates step init j) = false ∧
          isnanP (emStates step init (j + 1)) = false) →
      isnanP (emStates step init (k + 1)) = true →
      emLoop step isnanP convP n init init =
        (some true, emStates step init k, emStates step init (k + 1)) := by
  intro k
  induction k with
  | zero =>
    intro n init hn _ hnan
    obtain ⟨m, rfl⟩ : ∃ m, n = m + 1 := ⟨n - 1, by omega⟩
    rw [emLoop]
    have hstep : step init = emStates step init 1 := rfl
    rw [hstep, hnan]
    simp [emStates]
  | succ k ih =>
    intro n init hn hgood hnan
    obtain ⟨m, rfl⟩ : ∃ m, n = m + 1 := ⟨n - 1, by omega⟩
    rw [emLoop]
    have h0c : convP (step init) init = false := (hgood 0 (by omega)).1
    have h0n : isnanP (step init) = false := (hgood 0 (by omega)).2
    rw [h0c, h0n]
    rw [if_neg (by simp)]
    have ihres := ih m (step init) (by omega)
      (fun j hj => by
        simpa [emStates_shift] using hgood (j + 1) (by omega))
      (by rw [emStates_shift]; exact hnan)
    simp only [ihres]
    simp [emStates_shift]

/-- C1 counterexample: with `max_iter = 0` the loop body never runs, the
local `isnan` is never assigned, and the trailing
`return … if isnan else …` raises a `NameError` — so `nbn_em` does not
"never raise for any max_iter >= 0". -/
theorem nbnEm_zero_iter_raises :
    nbnEm Nat.succ (fun _ => false) (fun _ _ => false) (id : ℕ → ℕ) 0 0 =
      Except.error "NameError: name isnan is not defined" := rfl

/-- C1 (amended): for every update function, NaN predicate, convergence
predicate and initial parameters, provided `max_iter ≥ 1`: `nbn_em` returns
without raising, and if the first NaN appears at iteration `k + 1` (with no
earlier convergence break), the returned parameters are the last valid
pre-NaN snapshot — the pre-loop initial values when the very first
iteration produces NaN (`k = 0`). -/
theorem nbnEm_nan_snapshot {P R : Type} (step : P → P) (isnanP : P → Bool)
    (convP : P → P → Bool) (finalize : P → R) (init : P) (maxIter : ℕ)
    (hIter : 1 ≤ maxIter) :
    (∃ r, nbnEm step isnanP convP finalize maxIter init = .ok r) ∧
    (∀ k, k < maxIter →
      (∀ j, j < k → convP (emStates step init (j + 1)) (emStates step init j) = false ∧
          isnanP (emStates step init (j + 1)) = false) →
      isnanP (emStates step init (k + 1)) = true →
      nbnEm step isnanP convP finalize maxIter init = .ok (finalize (emStates step init k))) := by
  constructor
  · obtain ⟨m, rfl⟩ : ∃ m, maxIter = m + 1 := ⟨maxIter - 1, by omega⟩
    unfold nbnEm
    rcases hb : (emLoop step isnanP convP (m + 1) init init).1 with _ | b
    · exact absurd hb (emLoop_fst_isSome step isnanP convP m init init)
    · cases b <;> simp [hb]
  · intro k hk hgood hnan
    unfold nbnEm
    rw [emLoop_nan step isnanP convP k maxIter init hk hgood hnan]

/-- Witness for `nbnEm_nan_snapshot` at a concrete instance: states count
up from 0, "NaN" is the value 2, first reached at iteration 2, so the
snapshot after iteration 1 (the value 1) is returned. -/
theorem nbnEm_nan_snapshot_witness :
    nbnEm Nat.succ (fun p => p == 2) (fun _ _ => false) id 3 (0 : ℕ) = Except.ok 1 := by
  have h := (nbnEm_nan_snapshot Nat.succ (fun p => p == 2) (fun _ _ => false) id (0 : ℕ) 3
    (by norm_num)).2 1 (by norm_num) (by decide) (by decide)
  simpa [emStates] using h

/-! ### The E-step degenerate-pixel policy and normalization -/

theorem epsEM_lt_one : epsEM < 1 := by norm_num [epsEM]

/-- C2: for any pixel with nonnegative weights and pmf values, if the two
weighted component likelihoods sum to at most `1e-9`, the responsibility is
forced (pre-normalization) to the background component when `X < 2*mu[0]`
and to the cell component otherwise; and after normalization the two
responsibilities always sum to exactly 1. -/
theorem estep_degenerate_forcing (w0 w1 mu0 x bp cp : ℚ)
    (hw0 : 0 ≤ w0) (hw1 : 0 ≤ w1) (hbp : 0 ≤ bp) (hcp : 0 ≤ cp) :
    (w0 * bp + w1 * cp ≤ epsEM →
      (x < mu0 * 2 →
        forcedTau0 w0 w1 mu0 x bp cp = 1 ∧ forcedTau1 w0 w1 mu0 x bp cp = w1 * cp) ∧
      (¬x < mu0 * 2 →
        forcedTau1 w0 w1 mu0 x bp cp = 1 ∧ forcedTau0 w0 w1 mu0 x bp cp = w0 * bp)) ∧
    (estepPixel w0 w1 mu0 x bp cp).1 + (estepPixel w0 w1 mu0 x bp cp).2 = 1 := by
  have ht0 : 0 ≤ w0 * bp := mul_nonneg hw0 hbp
  have ht1 : 0 ≤ w1 * cp := mul_nonneg hw1 hcp
  have hforce0 : ∀ h : w0 * bp + w1 * cp ≤ epsEM ∧ x < mu0 * 2,
      forcedTau0 w0 w1 mu0 x bp cp = 1 := fun h => if_pos h
  constructor
  · intro hdeg
    constructor
    · intro hx
      have h0 : forcedTau0 w0 w1 mu0 x bp cp = 1 := hforce0 ⟨hdeg, hx⟩
      refine ⟨h0, ?_⟩
      unfold forcedTau1
      rw [h0]
      have : ¬(1 + w1 * cp ≤ epsEM ∧ ¬x < mu0 * 2) := by
        rintro ⟨hle, _⟩
        have : (1 : ℚ) ≤ 1 + w1 * cp := by linarith
        have := epsEM_lt_one
        linarith
      rw [if_neg this]
    · intro hx
      have h0 : forcedTau0 w0 w1 mu0 x bp cp = w0 * bp := by
        unfold forcedTau0
        rw [if_neg (by tauto)]
      refine ⟨?_, h0⟩
      unfold forcedTau1
      rw [h0, if_pos ⟨hdeg, hx⟩]
  · -- the normalized responsibilities sum to 1: the post-forcing sum is positive
    have hs : 0 < forcedTau0 w0 w1 mu0 x bp cp + forcedTau1 w0 w1 mu0 x bp cp := by
      by_cases hdeg : w0 * bp + w1 * cp ≤ epsEM
      · by_cases hx : x < mu0 * 2
        · have h0 : forcedTau0 w0 w1 mu0 x bp cp = 1 := hforce0 ⟨hdeg, hx⟩
          have h1 : 0 ≤ forcedTau1 w0 w1 mu0 x bp cp := by
            unfold forcedTau1
            split
            · norm_num
            · exact ht1
          rw [h0]; linarith
        · have h0 : forcedTau0 w0 w1 mu0 x bp cp = w0 * bp := by
            unfold forcedTau0; exact if_neg (by tauto)
          have h1 : forcedTau1 w0 w1 mu0 x bp cp = 1 := by
            unfold forcedTau1; rw [h0]; exact if_pos ⟨hdeg, hx⟩
          have h0' : 0 ≤ forcedTau0 w0 w1 mu0 x bp cp := by rw [h0]; exact ht0
          rw [h1]; linarith
      · have heps : 0 < epsEM := by norm_num [epsEM]
        have h0 : forcedTau0 w0 w1 mu0 x bp cp = w0 * bp := by
          unfold forcedTau0; exact if_neg (by tauto)
        have h1 : forcedTau1 w0 w1 mu0 x bp cp = w1 * cp := by
          unfold forcedTau1; rw [h0]; exact if_neg (by tauto)
        rw [h0, h1]
        push_neg at hdeg
        linarith
    show forcedTau0 w0 w1 mu0 x bp cp / (forcedTau0 w0 w1 mu0 x bp cp + forcedTau1 w0 w1 mu0 x bp cp)
        + forcedTau1 w0 w1 mu0 x bp cp / (forcedTau0 w0 w1 mu0 x bp cp + forcedTau1 w0 w1 mu0 x bp cp) = 1
    rw [div_add_div_same, div_self (ne_of_gt hs)]

/-- Witness for `estep_degenerate_forcing`: a pixel with zero likelihoods
and `x = 0 < 2*mu0` is forced to the background component and normalizes
to `(1, 0)`. -/
theorem estep_degenerate_forcing_witness :
    forcedTau0 1 1 1 0 0 0 = 1 ∧
      (estepPixel 1 1 1 0 0 0).1 + (estepPixel 1 1 1 0 0 0).2 = 1 := by
  have h := estep_degenerate_forcing 1 1 1 0 0 0 (by norm_num) (by norm_num)
    (by norm_num) (by norm_num)
  exact ⟨(h.1 (by norm_num [epsEM])).1 (by norm_num) |>.1, h.2⟩

/-! ## The posterior scorer: `conditionals` and `confidence`
(em.py lines 114–186)

`em_results` is either a single parameter triple or a per-bin mapping
(a dict, embedded as an association list in iteration order).  The
negative-binomial pmf is an external scipy call, taken as a parameter
`pmf r p x`.  Elementwise float division is `qdiv?`, with `none` standing
for the NaN/inf that NumPy produces on a zero denominator. -/

/-- One mixture parameter triple `(w, r, p)` with components for
background (index 0) and cell (index 1). -/
structure MixtureParams where
  w0 : ℚ
  w1 : ℚ
  r0 : ℚ
  r1 : ℚ
  p0 : ℚ
  p1 : ℚ

/-- The `em_results` argument: a single triple, or a dict keyed by bin label. -/
inductive EMResults where
  | single (p : MixtureParams)
  | perBin (l : List (ℕ × MixtureParams))

/-- NumPy elementwise division; a zero denominator yields NaN/inf (`none`). -/
def qdiv? (a b : ℚ) : Option ℚ := if b = 0 then none else some (a / b)

instance {ε α : Type} [DecidableEq ε] [DecidableEq α] : DecidableEq (Except ε α) := fun x y =>
  match x, y with
  | .error a, .error b =>
    if h : a = b then isTrue (by rw [h]) else isFalse fun hc => h (Except.error.inj hc)
  | .ok a, .ok b =>
    if h : a = b then isTrue (by rw [h]) else isFalse fun hc => h (Except.ok.inj hc)
  | .error _, .ok _ => isFalse fun hc => Except.noConfusion hc
  | .ok _, .error _ => isFalse fun hc => Except.noConfusion hc

/-- `out[indices] = f(src[indices])` for `indices = np.where(bins == label)`:
overwrite `cur` at the pixels of bin `label` with `f` of the source array. -/
def paint (src : List ℚ) (bs : List ℕ) (label : ℕ) (f : ℚ → ℚ) (cur : List ℚ) : List ℚ :=
  (cur.zip (src.zip bs)).map fun p => if p.2.2 = label then f p.2.1 else p.1

/-- `np.zeros(X.shape)`. -/
def zerosLike (X : List ℚ) : List ℚ := X.map fun _ => 0

/-- The per-bin loop of `conditionals`: paint the background and cell pmf
values over the zero-initialized arrays, one dict entry at a time. -/
def condPerBin (pmf : ℚ → ℚ → ℚ → ℚ) (X : List ℚ) (bs : List ℕ)
    (l : List (ℕ × MixtureParams)) : List ℚ × List ℚ :=
  l.foldl (fun acc e =>
    (paint X bs e.1 (pmf e.2.r0 e.2.p0) acc.1,
     paint X bs e.1 (pmf e.2.r1 e.2.p1) acc.2)) (zerosLike X, zerosLike X)

/-- `conditionals` (em.py lines 114–152): per-pixel background and
foreground conditional probabilities; raises `PreprocessingError` when
`em_results` is a dict but `bins` is `None`. -/
def conditionals (pmf : ℚ → ℚ → ℚ → ℚ) (X : List ℚ) (em : EMResults)
    (bins : Option (List ℕ)) : Except String (List ℚ × List ℚ) :=
  match em with
  | .perBin l =>
    match bins with
    | none => .error "em_results indicate binning was used, but bins was not provided"
    | some bs => .ok (condPerBin pmf X bs l)
  | .single p => .ok (X.map (pmf p.r0 p.p0), X.map (pmf p.r1 p.p1))

/-- The per-bin loop of `confidence` for `tau0`: `tau0[idx] = w[0] * bp[idx]`. -/
def tau0PerBin (bg : List ℚ) (X : List ℚ) (bs : List ℕ)
    (l : List (ℕ × MixtureParams)) : List ℚ :=
  l.foldl (fun acc e => paint bg bs e.1 (fun v => e.2.w0 * v) acc) (zerosLike X)

/-- The per-bin loop of `confidence` for `tau1`: `tau1[idx] = w[1] * cp[idx]`. -/
def tau1PerBin (cell : List ℚ) (X : List ℚ) (bs : List ℕ)
    (l : List (ℕ × MixtureParams)) : List ℚ :=
  l.foldl (fun acc e => paint cell bs e.1 (fun v => e.2.w1 * v) acc) (zerosLike X)

/-- `confidence` (em.py lines 155–186): `tau1 / (tau0 + tau1)` per pixel,
with `tau0`, `tau1` painted per bin in the dict case. -/
def confidence (pmf : ℚ → ℚ → ℚ → ℚ) (X : List ℚ) (em : EMResults)
    (bins : Option (List ℕ)) : Except String (List (Option ℚ)) :=
  match conditionals pmf X em bins with
  | .error e => .error e
  | .ok bc =>
    match em, bins with
    | .single p, _ =>
      .ok ((bc.1.zip bc.2).map fun q => qdiv? (p.w1 * q.2) (p.w0 * q.1 + p.w1 * q.2))
    | .perBin l, some bs =>
      .ok (((tau1PerBin bc.2 X bs l).zip (tau0PerBin bc.1 X bs l)).map
        fun q => qdiv? q.1 (q.2 + q.1))
    | .perBin _, none => .error "em_results indicate binning was used, but bins was not provided"

theorem confidence_single_eq (pmf : ℚ → ℚ → ℚ → ℚ) (X : List ℚ) (p : MixtureParams)
    (bins : Option (List ℕ)) :
    confidence pmf X (.single p) bins =
      .ok (((X.map (pmf p.r0 p.p0)).zip (X.map (pmf p.r1 p.p1))).map fun q =>
        qdiv? (p.w1 * q.2) (p.w0 * q.1 + p.w1 * q.2)) := rfl

theorem confidence_perBin_some_eq (pmf : ℚ → ℚ → ℚ → ℚ) (X : List ℚ)
    (l : List (ℕ × MixtureParams)) (bs : List ℕ) :
    confidence pmf X (.perBin l) (some bs) =
      .ok ((((tau1PerBin (condPerBin pmf X bs l).2 X bs l)).zip
            ((tau0PerBin (condPerBin pmf X bs l).1 X bs l))).map
        fun q => qdiv? q.1 (q.2 + q.1)) := rfl

/-- Nonnegative mixture weights (true of any weights produced by `nbn_em`,
where `w = tau_sum / tau_sum.sum()` with nonnegative responsibilities). -/
def emNonneg : EMResults → Prop
  | .single p => 0 ≤ p.w0 ∧ 0 ≤ p.w1
  | .perBin l => ∀ e ∈ l, 0 ≤ e.2.w0 ∧ 0 ≤ e.2.w1

/-! ### C4: missing bins with per-bin parameters is an immediate error -/

/-- C4: calling `conditionals` — and hence `confidence` — with per-bin
`em_results` while `bins` is `None` raises the invalid-configuration
`PreprocessingError` immediately; no partial result is produced. -/
theorem conditionals_perBin_noBins_raises (pmf : ℚ → ℚ → ℚ → ℚ) (X : List ℚ)
    (l : List (ℕ × MixtureParams)) :
    conditionals pmf X (.perBin l) none =
      .error "em_results indicate binning was used, but bins was not provided" ∧
    confidence pmf X (.perBin l) none =
      .error "em_results indicate binning was used, but bins was not provided" :=
  ⟨rfl, rfl⟩

/-! ### C3: range of the confidence scores -/

theorem qdiv?_shape_range (a b : ℚ) (ha : 0 ≤ a) (hb : 0 ≤ b) (v : ℚ)
    (h : qdiv? a (b + a) = some v) : 0 ≤ v ∧ v ≤ 1 := by
  unfold qdiv? at h
  split at h
  · exact absurd h (by simp)
  · rename_i hne
    obtain rfl : a / (b + a) = v := Option.some.inj h
    have hpos : 0 < b + a := lt_of_le_of_ne (by linarith) (Ne.symm hne)
    exact ⟨div_nonneg ha (le_of_lt hpos), (div_le_one hpos).2 (by linarith)⟩

theorem paint_nonneg {src : List ℚ} {bs : List ℕ} {label : ℕ} {f : ℚ → ℚ} {cur : List ℚ}
    (hcur : ∀ c ∈ cur, 0 ≤ c) (hf : ∀ s ∈ src, 0 ≤ f s) :
    ∀ v ∈ paint src bs label f cur, 0 ≤ v := by
  intro v hv
  unfold paint at hv
  obtain ⟨⟨c, s, b⟩, hp, rfl⟩ := List.mem_map.1 hv
  have hmem := List.of_mem_zip hp
  have hmem2 := List.of_mem_zip hmem.2
  dsimp only
  split
  · exact hf s hmem2.1
  · exact hcur c hmem.1

theorem foldl_preserve_mem {α β : Type} (P : β → Prop) (f : β → α → β) :
    ∀ (l : List α), (∀ b a, a ∈ l → P b → P (f b a)) →
      ∀ (b : β), P b → P (l.foldl f b) := by
  intro l
  induction l with
  | nil => intro _ b hb; exact hb
  | cons a as ih =>
    intro h b hb
    exact ih (fun b' a' ha' hb' => h b' a' (List.mem_cons_of_mem a ha') hb') _
      (h b a (List.mem_cons_self a as) hb)

theorem zerosLike_nonneg (X : List ℚ) : ∀ v ∈ zerosLike X, 0 ≤ v := by
  intro v hv
  obtain ⟨x, _, rfl⟩ := List.mem_map.1 hv
  exact le_refl 0

theorem condPerBin_nonneg (pmf : ℚ → ℚ → ℚ → ℚ) (X : List ℚ) (bs : List ℕ)
    (l : List (ℕ × MixtureParams)) (hpmf : ∀ r p x, 0 ≤ pmf r p x) :
    (∀ v ∈ (condPerBin pmf X bs l).1, 0 ≤ v) ∧ (∀ v ∈ (condPerBin pmf X bs l).2, 0 ≤ v) :=
  foldl_preserve_mem
    (fun (t : List ℚ × List ℚ) => (∀ v ∈ t.1, 0 ≤ v) ∧ (∀ v ∈ t.2, 0 ≤ v))
    _ l
    (fun t e _ ht =>
      ⟨@paint_nonneg X bs e.1 (pmf e.2.r0 e.2.p0) t.1 ht.1 (fun s _ => hpmf _ _ s),
       @paint_nonneg X bs e.1 (pmf e.2.r1 e.2.p1) t.2 ht.2 (fun s _ => hpmf _ _ s)⟩)
    (zerosLike X, zerosLike X) ⟨zerosLike_nonneg X, zerosLike_nonneg X⟩

/-- C3 counterexample: with per-bin parameters for bin 1 only and a pixel
lying in bin 0 (the "no bin / ignore" value, which `run_em` never fits),
the conditionals stay at their zero initialization and `tau1/(tau0+tau1)`
is `0/0` — NaN, which does not lie in the closed interval `[0, 1]`. -/
theorem confidence_nan_at_missing_bin :
    confidence (fun _ _ _ => (1 : ℚ) / 2) [0]
      (.perBin [(1, ⟨1/2, 1/2, 1, 1, 1/2, 1/2⟩)]) (some [0]) = .ok [none] := by
  rw [confidence_perBin_some_eq]
  norm_num [condPerBin, tau0PerBin, tau1PerBin, paint, zerosLike, qdiv?]

/-- C3 (amended): for every input, parameters with nonnegative weights and
a nonnegative pmf, every *defined* element of the `confidence` output lies
in `[0, 1]`; pixels whose bin label is absent from a per-bin mapping
instead produce an undefined (NaN) element, as witnessed by the
counterexample. -/
theorem tau0PerBin_nonneg (bg X : List ℚ) (bs : List ℕ) (l : List (ℕ × MixtureParams))
    (hbg : ∀ v ∈ bg, 0 ≤ v) (hw : ∀ e ∈ l, 0 ≤ e.2.w0) :
    ∀ v ∈ tau0PerBin bg X bs l, 0 ≤ v :=
  foldl_preserve_mem (fun t => ∀ v ∈ t, 0 ≤ v) _ l
    (fun t e he ht => paint_nonneg ht fun s hs => mul_nonneg (hw e he) (hbg s hs))
    (zerosLike X) (zerosLike_nonneg X)

theorem tau1PerBin_nonneg (cell X : List ℚ) (bs : List ℕ) (l : List (ℕ × MixtureParams))
    (hcell : ∀ v ∈ cell, 0 ≤ v) (hw : ∀ e ∈ l, 0 ≤ e.2.w1) :
    ∀ v ∈ tau1PerBin cell X bs l, 0 ≤ v :=
  foldl_preserve_mem (fun t => ∀ v ∈ t, 0 ≤ v) _ l
    (fun t e he ht => paint_nonneg ht fun s hs => mul_nonneg (hw e he) (hcell s hs))
    (zerosLike X) (zerosLike_nonneg X)

/-- C3 (amended): for every input, parameters with nonnegative weights and
a nonnegative pmf, every *defined* element of the `confidence` output lies
in `[0, 1]`; pixels whose bin label is absent from a per-bin mapping
instead produce an undefined (NaN) element, as witnessed by the
counterexample. -/
theorem confidence_range (pmf : ℚ → ℚ → ℚ → ℚ) (X : List ℚ) (em : EMResults)
    (bins : Option (List ℕ)) (hpmf : ∀ r p x, 0 ≤ pmf r p x) (hem : emNonneg em)
    (out : List (Option ℚ)) (hout : confidence pmf X em bins = .ok out) :
    ∀ o ∈ out, ∀ v : ℚ, o = some v → 0 ≤ v ∧ v ≤ 1 := by
  match em with
  | .single p =>
    rw [confidence_single_eq] at hout
    obtain rfl := Except.ok.inj hout
    intro o ho v hv
    obtain ⟨⟨a, b⟩, hab, rfl⟩ := List.mem_map.1 ho
    have hmem := List.of_mem_zip hab
    obtain ⟨xa, _, rfl⟩ := List.mem_map.1 hmem.1
    obtain ⟨xb, _, rfl⟩ := List.mem_map.1 hmem.2
    exact qdiv?_shape_range _ _ (mul_nonneg hem.2 (hpmf _ _ _))
      (mul_nonneg hem.1 (hpmf _ _ _)) v hv
  | .perBin l =>
    match bins with
    | none => exact absurd hout (by simp [confidence, conditionals])
    | some bs =>
      rw [confidence_perBin_some_eq] at hout
      obtain rfl := Except.ok.inj hout
      have hbc := condPerBin_nonneg pmf X bs l hpmf
      have ht1 := tau1PerBin_nonneg (condPerBin pmf X bs l).2 X bs l hbc.2
        (fun e he => (hem e he).2)
      have ht0 := tau0PerBin_nonneg (condPerBin pmf X bs l).1 X bs l hbc.1
        (fun e he => (hem e he).1)
      intro o ho v hv
      obtain ⟨⟨a, b⟩, hab, rfl⟩ := List.mem_map.1 ho
      have hmem := List.of_mem_zip hab
      exact qdiv?_shape_range _ _ (ht1 a hmem.1) (ht0 b hmem.2) v hv

/-- Witness for `confidence_range` at a concrete instance: a constant pmf
of 1/2 and equal weights give confidence 1/2 at a single pixel, which lies
in `[0, 1]`. -/
theorem confidence_range_witness :
    (0 : ℚ) ≤ 1 / 2 ∧ (1 : ℚ) / 2 ≤ 1 :=
  confidence_range (fun _ _ _ => (1 : ℚ) / 2) [3]
    (.single ⟨1/2, 1/2, 1, 1, 1/2, 1/2⟩) none
    (fun _ _ _ => by norm_num) ⟨by norm_num, by norm_num⟩
    [some (1/2)]
    (by rw [confidence_single_eq]; norm_num [qdiv?])
    (some (1/2)) (by simp) (1/2) rfl

/-! ## The sampler of `run_em` (em.py lines 231–268)

Pools of training samples (one per bin label, or a single pool keyed `0`)
are downsampled before fitting.  `int(x)` is Python truncation toward
zero (`pyInt`); the `downsample == int(downsample)` test picks between the
fractional and the absolute interpretation of the budget.  The weighted
draw `rng.choice(_samples, n, replace=False, p=log/log.sum())` is an
external numpy call: the embedding records the request passed to it
(`SampleRequest`), with `np.log` as an abstract parameter. -/

/-- Python `int()` on a rational: truncation toward zero. -/
def pyInt (q : ℚ) : ℤ := if q < 0 then ⌈q⌉ else ⌊q⌋

/-- The test `downsample == int(downsample)` from em.py line 254. -/
def pyIsIntegral (q : ℚ) : Bool := decide (q = (pyInt q : ℚ))

/-- The arguments of one `rng.choice` call. -/
structure SampleRequest where
  pool : List ℚ
  count : ℕ
  withReplacement : Bool
  weights : List ℚ

/-- `p = log / log.sum()`: sampling weights proportional to log intensity. -/
def logWeights (log : ℚ → ℚ) (pool : List ℚ) : List ℚ :=
  let ls := pool.map log
  ls.map fun v => v / ls.sum

/-- The per-pool target count (em.py line 261):
`int(len * downsample)` when the budget is fractional,
`int(downsample * (len / total))` when it is an absolute cap. -/
def downsampleTarget (downsample : ℚ) (poolLen total : ℕ) : ℤ :=
  if pyIsIntegral downsample then pyInt (downsample * ((poolLen : ℚ) / (total : ℚ)))
  else pyInt ((poolLen : ℚ) * downsample)

/-- Downsampling one pool (em.py lines 261–264), threading the RNG state
through the external `rng.choice` call. -/
def selectPoolR {Rng : Type} (chooseR : Rng → SampleRequest → List ℚ × Rng)
    (log : ℚ → ℚ) (downsample : ℚ) (total : ℕ) (rng : Rng) (pool : List ℚ) :
    List ℚ × Rng :=
  let t := downsampleTarget downsample pool.length total
  if (pool.length : ℤ) > t then
    chooseR rng ⟨pool, t.toNat, false, logWeights log pool⟩
  else (pool, rng)

/-- The fitting loop of `run_em` (em.py lines 256–268): create the RNG
from the seed via `np.random.default_rng(seed)` (`mkRng`; it may consult
ambient entropy `globalRng` only when the seed is `None`), then fit each
pool after downsampling.  `emFit` is the (deterministic) `nbn_em` call. -/
def runEmModel {Rng R : Type} (mkRng : Option ℕ → Rng → Rng)
    (chooseR : Rng → SampleRequest → List ℚ × Rng) (log : ℚ → ℚ)
    (emFit : List ℚ → R) (downsample : ℚ) (pools : List (ℕ × List ℚ))
    (seed : Option ℕ) (globalRng : Rng) : List (ℕ × R) :=
  let rng := mkRng seed globalRng
  let total := (pools.map fun p => p.2.length).sum
  (pools.foldl (fun acc p =>
    let sr := selectPoolR chooseR log downsample total acc.2 p.2
    (acc.1 ++ [(p.1, emFit sr.1)], sr.2)) ([], rng)).1

/-! ### C7: interpretation of the downsample budget -/

/-- C7: the budget is a per-pool fraction when not integral and an
absolute cap scaled by the pool's share of the total when integral; a pool
whose size is at most its target is used unmodified (no RNG call); a
larger pool is passed to `rng.choice` with `replace=False` and weights
proportional to the log intensities. -/
theorem run_em_downsample {Rng : Type} (chooseR : Rng → SampleRequest → List ℚ × Rng)
    (log : ℚ → ℚ) (d : ℚ) (total : ℕ) (rng : Rng) (pool : List ℚ) :
    (pyIsIntegral d = false →
      downsampleTarget d pool.length total = pyInt ((pool.length : ℚ) * d)) ∧
    (pyIsIntegral d = true →
      downsampleTarget d pool.length total = pyInt (d * ((pool.length : ℚ) / (total : ℚ)))) ∧
    ((pool.length : ℤ) ≤ downsampleTarget d pool.length total →
      selectPoolR chooseR log d total rng pool = (pool, rng)) ∧
    (downsampleTarget d pool.length total < (pool.length : ℤ) →
      selectPoolR chooseR log d total rng pool =
        chooseR rng ⟨pool, (downsampleTarget d pool.length total).toNat, false,
          logWeights log pool⟩) := by
  refine ⟨fun h => ?_, fun h => ?_, fun h => ?_, fun h => ?_⟩
  · unfold downsampleTarget
    rw [h]
    simp
  · unfold downsampleTarget
    rw [h]
    simp
  · unfold selectPoolR
    rw [if_neg (by omega)]
  · unfold selectPoolR
    rw [if_pos (by omega)]

/-- Witness for `run_em_downsample`: an absolute budget of 4 against a
pool of 2 samples out of 2 total leaves the pool unmodified. -/
theorem run_em_downsample_witness :
    selectPoolR (fun (r : ℕ) q => (q.pool.take q.count, r)) id 4 2 0 [2, 3] = ([2, 3], 0) :=
  (run_em_downsample (fun (r : ℕ) q => (q.pool.take q.count, r)) id 4 2 0 [2, 3]).2.2.1
    (by norm_num [downsampleTarget, pyIsIntegral, pyInt])

/-! ### C8: determinism of `run_em` and `nbn_em` -/

/-- C8: with a provided seed, two runs of `run_em` with identical inputs
produce identical sample selections and results — the output does not
depend on any ambient RNG state, since the source builds its generator
with `np.random.default_rng(seed)`; and `nbn_em` is a pure function of its
arguments (it consults no randomness or hidden state), so two runs with
identical inputs coincide. -/
theorem run_em_deterministic {Rng R : Type} (mkRng : Option ℕ → Rng → Rng)
    (chooseR : Rng → SampleRequest → List ℚ × Rng) (log : ℚ → ℚ)
    (emFit : List ℚ → R) (d : ℚ) (pools : List (ℕ × List ℚ)) (s : ℕ) (g1 g2 : Rng)
    (hmk : ∀ g g', mkRng (some s) g = mkRng (some s) g') :
    runEmModel mkRng chooseR log emFit d pools (some s) g1 =
      runEmModel mkRng chooseR log emFit d pools (some s) g2 ∧
    (∀ {P R' : Type} (step : P → P) (isnanP : P → Bool) (convP : P → P → Bool)
      (finalize : P → R') (maxIter : ℕ) (init : P),
      nbnEm step isnanP convP finalize maxIter init =
        nbnEm step isnanP convP finalize maxIter init) := by
  constructor
  · unfold runEmModel
    rw [hmk g1 g2]
  · intro _ _ _ _ _ _ _ _
    rfl

/-- Witness for `run_em_deterministic` at a concrete instance: runs with
ambient entropy 0 and 99 coincide when the seed is provided. -/
theorem run_em_deterministic_witness :
    runEmModel (fun s g => s.getD g)
      (fun (r : ℕ) q => (q.pool.take q.count, r)) id (fun l => l.length)
      1 [(0, [1, 2])] (some 5) 0 =
    runEmModel (fun s g => s.getD g)
      (fun (r : ℕ) q => (q.pool.take q.count, r)) id (fun l => l.length)
      1 [(0, [1, 2])] (some 5) 99 :=
  (run_em_deterministic (fun s g => s.getD g)
    (fun (r : ℕ) q => (q.pool.take q.count, r)) id (fun l => l.length)
    1 [(0, [1, 2])] 5 0 99 (fun _ _ => rfl)).1

/-! ## Label expansion: `_expand_labels` (label.py lines 125–158)

A label image with `n` pixels is a function `Fin n → ℕ` (0 = unlabeled).
Each of the `distance` iterations first freezes every label whose current
area (`np.bincount`) meets `max_area` — saving its pixel set in the
`saved` dict and zeroing it — then applies one distance-1
`skimage.segmentation.expand_labels` step (the external morphology
primitive `prim`) and the optional mask multiplication; afterwards the
saved labels are written back in dict order. -/

/-- `np.where(a == l)`: the pixel set of label `l`. -/
def idxSet {n : ℕ} (a : Fin n → ℕ) (l : ℕ) : Finset (Fin n) :=
  Finset.univ.filter fun i => a i = l

/-- The area of label `l` (its `np.bincount` entry). -/
def cnt {n : ℕ} (a : Fin n → ℕ) (l : ℕ) : ℕ := (idxSet a l).card

/-- The largest label value occurring in the image (`a.max()`; 0 for `n = 0`). -/
def maxVal {n : ℕ} (a : Fin n → ℕ) : ℕ := Finset.univ.sup a

/-- `(np.bincount(expanded.flatten()) >= max_area).nonzero()[0]` restricted
by the `label > 0` guard: the positive labels to freeze, in increasing
order. -/
def freezeLabels {n : ℕ} (a : Fin n → ℕ) (maxArea : ℕ) : List ℕ :=
  (List.range (maxVal a + 1)).filter fun l => decide (0 < l ∧ maxArea ≤ cnt a l)

/-- The `saved` dict: key → pixel set, in insertion order. -/
abbrev Saved (n : ℕ) := List (ℕ × Finset (Fin n))

/-- `saved[label] = where`: Python dict assignment (update in place if the
key exists, else append). -/
def savedInsert {n : ℕ} (s : Saved n) (l : ℕ) (w : Finset (Fin n)) : Saved n :=
  if s.any fun p => p.1 == l then s.map fun p => if p.1 = l then (l, w) else p
  else s ++ [(l, w)]

/-- Zero the pixels in `w`. -/
def zeroOut {n : ℕ} (a : Fin n → ℕ) (w : Finset (Fin n)) : Fin n → ℕ :=
  fun i => if i ∈ w then 0 else a i

/-- The freezing loop of one iteration (label.py lines 142–147): for each
label at or above `max_area`, record its current pixel set and remove it. -/
def freezeStep {n : ℕ} (maxArea : ℕ) (st : (Fin n → ℕ) × Saved n) :
    (Fin n → ℕ) × Saved n :=
  (freezeLabels st.1 maxArea).foldl
    (fun st l => (zeroOut st.1 (idxSet st.1 l), savedInsert st.2 l (idxSet st.1 l))) st

/-- `expanded *= mask` (label.py lines 151–152). -/
def applyMask {n : ℕ} (mask : Option (Fin n → ℕ)) (a : Fin n → ℕ) : Fin n → ℕ :=
  match mask with
  | none => a
  | some m => fun i => a i * m i

/-- One iteration of the expansion loop: freeze, expand by the external
primitive, mask. -/
def expandIter {n : ℕ} (prim : (Fin n → ℕ) → Fin n → ℕ) (maxArea : ℕ)
    (mask : Option (Fin n → ℕ)) (st : (Fin n → ℕ) × Saved n) : (Fin n → ℕ) × Saved n :=
  let st1 := freezeStep maxArea st
  (applyMask mask (prim st1.1), st1.2)

/-- `for _ in range(distance)`: `k` iterations of the expansion loop. -/
def expandN {n : ℕ} (prim : (Fin n → ℕ) → Fin n → ℕ) (maxArea : ℕ)
    (mask : Option (Fin n → ℕ)) : ℕ → (Fin n → ℕ) × Saved n → (Fin n → ℕ) × Saved n
  | 0, st => st
  | k + 1, st => expandIter prim maxArea mask (expandN prim maxArea mask k st)

/-- Write the saved labels back over their recorded pixel sets, in dict
order (label.py lines 155–156). -/
def restoreSaved {n : ℕ} (a : Fin n → ℕ) (s : Saved n) : Fin n → ℕ :=
  s.foldl (fun a p => fun i => if i ∈ p.2 then p.1 else a i) a

/-- `_expand_labels`: `expanded = labels.copy()`, the iteration loop, then
the restore pass. -/
def expandLabels {n : ℕ} (prim : (Fin n → ℕ) → Fin n → ℕ) (labels : Fin n → ℕ)
    (distance maxArea : ℕ) (mask : Option (Fin n → ℕ)) : Fin n → ℕ :=
  let st := expandN prim maxArea mask distance (labels, [])
  restoreSaved st.1 st.2

/-- A concrete instance of the external `skimage.segmentation.expand_labels`
primitive at `distance=1` for single-row images: a zero pixel takes the
label of its left neighbour if labeled, else of its right neighbour (both
at Euclidean distance 1; used only on inputs without equidistant ties, where
this agrees with skimage's nearest-label assignment). -/
def rowExpand {n : ℕ} (a : Fin n → ℕ) : Fin n → ℕ := fun i =>
  let get := fun (j : ℕ) => if h : j < n then a ⟨j, h⟩ else 0
  if a i ≠ 0 then a i
  else if get (i.val - 1) ≠ 0 then get (i.val - 1)
  else get (i.val + 1)

/-- C5 counterexample: on the row `[1, 1, 2]` with `distance = 2` and
`max_area = 2`, label 1 is frozen from the input (area 2 ≥ 2) and label 2
grows into its vacated pixel and is then frozen itself at the second
iteration; the final restore writes label 2 over pixel 1 after label 1, so
the output is `[1, 2, 2]`: the frozen label 1 does not keep its input
pixel set, and expanded label 2 now occupies an input pixel of label 1. -/
theorem expand_labels_freeze_clobbered :
    expandLabels rowExpand (![1, 1, 2] : Fin 3 → ℕ) 2 2 none = ![1, 2, 2] ∧
    cnt (![1, 1, 2] : Fin 3 → ℕ) 1 = 2 ∧
    idxSet (expandLabels rowExpand (![1, 1, 2] : Fin 3 → ℕ) 2 2 none) 1 ≠
      idxSet (![1, 1, 2] : Fin 3 → ℕ) 1 ∧
    expandLabels rowExpand (![1, 1, 2] : Fin 3 → ℕ) 2 2 none 1 = 2 ∧
    (![1, 1, 2] : Fin 3 → ℕ) 1 = 1 := by
  refine ⟨?_, ?_, ?_, ?_, ?_⟩ <;> decide

/-! ### Structural lemmas for `_expand_labels` -/

theorem mem_idxSet {n : ℕ} (a : Fin n → ℕ) (l : ℕ) (i : Fin n) :
    i ∈ idxSet a l ↔ a i = l := by
  simp [idxSet]

theorem restoreSaved_nil {n : ℕ} (a : Fin n → ℕ) : restoreSaved a [] = a := rfl

theorem restoreSaved_cons {n : ℕ} (a : Fin n → ℕ) (p : ℕ × Finset (Fin n)) (s : Saved n) :
    restoreSaved a (p :: s) = restoreSaved (fun i => if i ∈ p.2 then p.1 else a i) s := rfl

/-- Restoring saved pixel sets that are exactly the input pixel sets of a
list of labels: pixel `i` gets `labels i` back iff its input label is in
the list. -/
theorem restore_map_apply {n : ℕ} (labels : Fin n → ℕ) :
    ∀ (L : List ℕ) (e : Fin n → ℕ) (i : Fin n),
      restoreSaved e (L.map fun l => (l, idxSet labels l)) i =
        if labels i ∈ L then labels i else e i := by
  intro L
  induction L with
  | nil => intro e i; simp [restoreSaved_nil]
  | cons l L ih =>
    intro e i
    rw [List.map_cons, restoreSaved_cons, ih]
    by_cases h1 : labels i ∈ L
    · simp [h1]
    · by_cases h2 : labels i = l
      · simp [h1, h2, mem_idxSet]
      · simp [h1, h2, mem_idxSet]

theorem savedInsert_fresh {n : ℕ} (s : Saved n) (l : ℕ) (w : Finset (Fin n))
    (h : ∀ p ∈ s, p.1 ≠ l) : savedInsert s l w = s ++ [(l, w)] := by
  unfold savedInsert
  split
  · rename_i hc
    rw [List.any_eq_true] at hc
    obtain ⟨p, hp, he⟩ := hc
    rw [beq_iff_eq] at he
    exact absurd he (h p hp)
  · rfl

theorem zeroOut_idxSet_ne {n : ℕ} (a : Fin n → ℕ) (l l' : ℕ) (h0 : 0 < l') (hne : l' ≠ l) :
    idxSet (zeroOut a (idxSet a l)) l' = idxSet a l' := by
  ext i
  rw [mem_idxSet, mem_idxSet]
  unfold zeroOut
  by_cases h : i ∈ idxSet a l
  · rw [if_pos h]
    rw [mem_idxSet] at h
    constructor
    · intro h'; omega
    · intro h'; exact absurd (h'.symm.trans h) hne
  · rw [if_neg h]

theorem freezeFold_spec {n : ℕ} :
    ∀ (L : List ℕ) (a : Fin n → ℕ) (s0 : Saved n),
      (∀ l ∈ L, 0 < l) → L.Nodup → (∀ p ∈ s0, p.1 ∉ L) →
      L.foldl (fun st l => (zeroOut st.1 (idxSet st.1 l), savedInsert st.2 l (idxSet st.1 l)))
          (a, s0) =
        ((fun i => if a i ∈ L then 0 else a i), s0 ++ L.map fun l => (l, idxSet a l)) := by
  intro L
  induction L with
  | nil =>
    intro a s0 _ _ _
    simp
  | cons l L ih =>
    intro a s0 hpos hnd hdisj
    rw [List.foldl_cons]
    have hfresh : savedInsert s0 l (idxSet a l) = s0 ++ [(l, idxSet a l)] := by
      apply savedInsert_fresh
      intro p hp he
      exact hdisj p hp (he ▸ List.mem_cons_self l L)
    rw [hfresh]
    have hnotL : l ∉ L := (List.nodup_cons.1 hnd).1
    rw [ih (zeroOut a (idxSet a l)) (s0 ++ [(l, idxSet a l)])
      (fun l' hl' => hpos l' (List.mem_cons_of_mem l hl'))
      (List.nodup_cons.1 hnd).2
      (by
        intro p hp
        rcases List.mem_append.1 hp with h | h
        · exact fun hin => hdisj p h (List.mem_cons_of_mem l hin)
        · simp only [List.mem_singleton] at h
          rw [h]
          exact hnotL)]
    rw [Prod.mk.injEq]
    constructor
    · funext i
      have hz : zeroOut a (idxSet a l) i = if a i = l then 0 else a i := by
        unfold zeroOut
        by_cases h : i ∈ idxSet a l
        · rw [if_pos h, if_pos ((mem_idxSet a l i).1 h)]
        · rw [if_neg h, if_neg fun he => h ((mem_idxSet a l i).2 he)]
      rw [hz]
      by_cases hil : a i = l
      · rw [if_pos hil]
        have h0L : (0 : ℕ) ∉ L := fun h => absurd (hpos 0 (List.mem_cons_of_mem l h)) (by omega)
        rw [if_neg h0L, if_pos (by rw [hil]; exact List.mem_cons_self l L)]
      · rw [if_neg hil]
        by_cases hiL : a i ∈ L
        · rw [if_pos hiL, if_pos (List.mem_cons_of_mem l hiL)]
        · rw [if_neg hiL, if_neg (by
            intro hc
            rcases List.mem_cons.1 hc with h | h
            · exact hil h
            · exact hiL h)]
    · rw [List.append_assoc]
      congr 1
      rw [List.singleton_append]
      congr 1
      apply List.map_congr_left
      intro l' hl'
      have : idxSet (zeroOut a (idxSet a l)) l' = idxSet a l' :=
        zeroOut_idxSet_ne a l l' (hpos l' (List.mem_cons_of_mem l hl'))
          (fun he => hnotL (he ▸ hl'))
      rw [this]

theorem mem_freezeLabels {n : ℕ} (a : Fin n → ℕ) (mA l : ℕ) :
    l ∈ freezeLabels a mA ↔ l < maxVal a + 1 ∧ 0 < l ∧ mA ≤ cnt a l := by
  simp [freezeLabels, List.mem_filter, List.mem_range]

theorem freezeLabels_nodup {n : ℕ} (a : Fin n → ℕ) (mA : ℕ) :
    (freezeLabels a mA).Nodup :=
  List.Nodup.filter _ (List.nodup_range _)

theorem label_le_maxVal {n : ℕ} (a : Fin n → ℕ) (i : Fin n) : a i ≤ maxVal a :=
  Finset.le_sup (Finset.mem_univ i)

theorem mem_freezeLabels_of_cnt {n : ℕ} (a : Fin n → ℕ) (mA l : ℕ) (h0 : 0 < l)
    (hc : mA ≤ cnt a l) (hpos : 0 < cnt a l) : l ∈ freezeLabels a mA := by
  rw [mem_freezeLabels]
  refine ⟨?_, h0, hc⟩
  obtain ⟨i, hi⟩ := Finset.card_pos.1 hpos
  have h1 : a i = l := (mem_idxSet a l i).1 hi
  have h2 := label_le_maxVal a i
  omega

theorem freezeStep_of_empty {n : ℕ} (mA : ℕ) (st : (Fin n → ℕ) × Saved n)
    (h : freezeLabels st.1 mA = []) : freezeStep mA st = st := by
  unfold freezeStep
  rw [h]
  rfl

theorem freezeStep_init {n : ℕ} (labels : Fin n → ℕ) (mA : ℕ) :
    freezeStep mA (labels, []) =
      ((fun i => if labels i ∈ freezeLabels labels mA then 0 else labels i),
        (freezeLabels labels mA).map fun l => (l, idxSet labels l)) := by
  unfold freezeStep
  have := freezeFold_spec (freezeLabels labels mA) labels []
    (fun l hl => ((mem_freezeLabels _ _ _).1 hl).2.1)
    (freezeLabels_nodup _ _) (by simp)
  simpa using this

/-- The mask value at each pixel (1 when there is no mask). -/
def mvalOf {n : ℕ} (mask : Option (Fin n → ℕ)) : Fin n → ℕ := fun i =>
  match mask with
  | none => 1
  | some m => m i

theorem applyMask_eq {n : ℕ} (mask : Option (Fin n → ℕ)) (x : Fin n → ℕ) (i : Fin n) :
    applyMask mask x i = x i * mvalOf mask i := by
  cases mask <;> simp [applyMask, mvalOf]

theorem mvalOf_le_one {n : ℕ} (mask : Option (Fin n → ℕ))
    (hmask : ∀ m, mask = some m → ∀ i, m i ≤ 1) (i : Fin n) : mvalOf mask i ≤ 1 := by
  cases mask with
  | none => exact le_refl 1
  | some m => exact hmask m rfl i

/-- The loop invariant for `_expand_labels` (when all freezing happens in
the first iteration): frozen labels are absent from the working image,
pixels of unfrozen labels hold their label masked by the mask, and every
value originates from the input image. -/
def expandInv {n : ℕ} (labels : Fin n → ℕ) (maxArea : ℕ) (mask : Option (Fin n → ℕ))
    (e : Fin n → ℕ) : Prop :=
  (∀ l ∈ freezeLabels labels maxArea, ∀ i, e i ≠ l) ∧
  (∀ i, 0 < labels i → labels i ∉ freezeLabels labels maxArea →
    e i = labels i * mvalOf mask i) ∧
  (∀ i, e i = 0 ∨ ∃ j, e i = labels j)

theorem inv_maskPrim {n : ℕ} (prim : (Fin n → ℕ) → Fin n → ℕ) (labels : Fin n → ℕ)
    (maxArea : ℕ) (mask : Option (Fin n → ℕ)) (e : Fin n → ℕ)
    (hprim : ∀ (a : Fin n → ℕ) (i : Fin n), prim a i = a i ∨ (a i = 0 ∧ ∃ j, prim a i = a j))
    (hmask : ∀ m, mask = some m → ∀ i, m i ≤ 1)
    (hI2 : ∀ l ∈ freezeLabels labels maxArea, ∀ i, e i ≠ l)
    (hI3 : ∀ i, 0 < labels i → labels i ∉ freezeLabels labels maxArea →
      (e i = labels i * mvalOf mask i ∨ e i = labels i))
    (hI4 : ∀ i, e i = 0 ∨ ∃ j, e i = labels j) :
    expandInv labels maxArea mask (applyMask mask (prim e)) := by
  refine ⟨?_, ?_, ?_⟩
  · intro l hl i
    rw [applyMask_eq]
    have hml := mvalOf_le_one mask hmask i
    have hx : prim e i ≠ l := by
      rcases hprim e i with h | ⟨_, j, hj⟩
      · rw [h]; exact hI2 l hl i
      · rw [hj]; exact hI2 l hl j
    have hlpos : 0 < l := ((mem_freezeLabels _ _ _).1 hl).2.1
    rcases Nat.le_one_iff_eq_zero_or_eq_one.1 hml with h | h <;> rw [h]
    · simpa using (by omega : (0 : ℕ) ≠ l)
    · simpa using hx
  · intro i hpos hnotin
    rw [applyMask_eq]
    have hml := mvalOf_le_one mask hmask i
    rcases Nat.le_one_iff_eq_zero_or_eq_one.1 hml with h | h <;> rw [h]
    · simp
    · rw [mul_one]
      have he : e i = labels i := by
        rcases hI3 i hpos hnotin with h' | h'
        · rw [h', h, mul_one]
        · exact h'
      rcases hprim e i with hp | ⟨hz, _⟩
      · rw [hp, he, mul_one]
      · rw [he] at hz; omega
  · intro i
    rw [applyMask_eq]
    have hml := mvalOf_le_one mask hmask i
    rcases Nat.le_one_iff_eq_zero_or_eq_one.1 hml with h | h <;> rw [h]
    · exact Or.inl (by simp)
    · rw [mul_one]
      rcases hprim e i with hp | ⟨_, j, hj⟩
      · rw [hp]; exact hI4 i
      · rw [hj]; exact hI4 j

theorem expandN_spec {n : ℕ} (prim : (Fin n → ℕ) → Fin n → ℕ) (labels : Fin n → ℕ)
    (distance maxArea : ℕ) (mask : Option (Fin n → ℕ))
    (hprim : ∀ (a : Fin n → ℕ) (i : Fin n), prim a i = a i ∨ (a i = 0 ∧ ∃ j, prim a i = a j))
    (hmask : ∀ m, mask = some m → ∀ i, m i ≤ 1)
    (hlate : ∀ k, 0 < k → k < distance →
      freezeLabels (expandN prim maxArea mask k (labels, ([] : Saved n))).1 maxArea = []) :
    ∀ k, 1 ≤ k → k ≤ distance →
      (expandN prim maxArea mask k (labels, [])).2 =
        (freezeLabels labels maxArea).map (fun l => (l, idxSet labels l)) ∧
      expandInv labels maxArea mask (expandN prim maxArea mask k (labels, [])).1 := by
  intro k
  induction k with
  | zero => intro h; omega
  | succ k ih =>
    intro _ hk
    by_cases hk1 : k = 0
    · subst hk1
      have heq : expandN prim maxArea mask 1 (labels, ([] : Saved n)) =
          expandIter prim maxArea mask (labels, []) := rfl
      rw [heq]
      unfold expandIter
      rw [freezeStep_init]
      refine ⟨rfl, ?_⟩
      exact inv_maskPrim prim labels maxArea mask _ hprim hmask
        (by
          intro l hl i
          dsimp only
          split
          · have := ((mem_freezeLabels _ _ _).1 hl).2.1
            omega
          · rename_i hni
            intro he
            exact hni (he ▸ hl))
        (by
          intro i hp hn
          dsimp only
          rw [if_neg hn]
          exact Or.inr rfl)
        (by
          intro i
          dsimp only
          split
          · exact Or.inl rfl
          · exact Or.inr ⟨i, rfl⟩)
    · have hk' : 1 ≤ k := by omega
      have ihres := ih hk' (by omega)
      have hfz := hlate k (by omega) (by omega)
      have heq : expandN prim maxArea mask (k + 1) (labels, ([] : Saved n)) =
          expandIter prim maxArea mask (expandN prim maxArea mask k (labels, [])) := rfl
      rw [heq]
      unfold expandIter
      rw [freezeStep_of_empty _ _ hfz]
      exact ⟨ihres.1,
        inv_maskPrim prim labels maxArea mask _ hprim hmask ihres.2.1
          (fun i hp hn => Or.inl (ihres.2.2.1 i hp hn)) ihres.2.2.2⟩

/-- C5 (amended): given that the external distance-1 expansion primitive
only relabels zero pixels with values already present, the mask is 0/1,
and no label first reaches `max_area` after the first iteration (freezing
only ever happens at iteration 1, from input areas — the counterexample
shows the claim fails otherwise): every label whose input area meets
`max_area` keeps exactly its input pixel set, and no pixel of a
pre-existing label ever carries a different label in the output (it keeps
its own label or is cleared by the mask). -/
theorem expand_labels_frozen_and_no_overlap {n : ℕ} (prim : (Fin n → ℕ) → Fin n → ℕ)
    (labels : Fin n → ℕ) (distance maxArea : ℕ) (mask : Option (Fin n → ℕ))
    (hprim : ∀ (a : Fin n → ℕ) (i : Fin n), prim a i = a i ∨ (a i = 0 ∧ ∃ j, prim a i = a j))
    (hmask : ∀ m, mask = some m → ∀ i, m i ≤ 1)
    (hlate : ∀ k, 0 < k → k < distance →
      freezeLabels (expandN prim maxArea mask k (labels, ([] : Saved n))).1 maxArea = []) :
    (∀ l, 0 < l → maxArea ≤ cnt labels l →
      idxSet (expandLabels prim labels distance maxArea mask) l = idxSet labels l) ∧
    (∀ i, 0 < labels i →
      expandLabels prim labels distance maxArea mask i = labels i ∨
      expandLabels prim labels distance maxArea mask i = 0) := by
  by_cases hd : distance = 0
  · subst hd
    have heq : expandLabels prim labels 0 maxArea mask = labels := rfl
    rw [heq]
    exact ⟨fun l _ _ => rfl, fun i _ => Or.inl rfl⟩
  · obtain ⟨hsv, hinv⟩ := expandN_spec prim labels distance maxArea mask hprim hmask hlate
      distance (by omega) (le_refl _)
    obtain ⟨hI2, hI3, hI4⟩ := hinv
    have hout : ∀ i, expandLabels prim labels distance maxArea mask i =
        if labels i ∈ freezeLabels labels maxArea then labels i
        else (expandN prim maxArea mask distance (labels, [])).1 i := by
      intro i
      show restoreSaved (expandN prim maxArea mask distance (labels, [])).1
        (expandN prim maxArea mask distance (labels, [])).2 i = _
      rw [hsv]
      exact restore_map_apply labels _ _ i
    constructor
    · intro l hl hcnt
      ext i
      rw [mem_idxSet, mem_idxSet, hout i]
      by_cases hfr : l ∈ freezeLabels labels maxArea
      · by_cases hi : labels i ∈ freezeLabels labels maxArea
        · rw [if_pos hi]
        · rw [if_neg hi]
          constructor
          · intro he
            exact absurd he (hI2 l hfr i)
          · intro he
            exact absurd (he ▸ hfr) hi
      · have hc0 : cnt labels l = 0 := by
          by_contra hnz
          exact hfr (mem_freezeLabels_of_cnt labels maxArea l hl hcnt
            (Nat.pos_of_ne_zero hnz))
        have hempty : idxSet labels l = ∅ := Finset.card_eq_zero.1 hc0
        have hnl : ∀ j : Fin n, labels j ≠ l := by
          intro j he
          have : j ∈ idxSet labels l := (mem_idxSet _ _ _).2 he
          rw [hempty] at this
          exact absurd this (Finset.not_mem_empty _)
        constructor
        · intro he
          by_cases hi : labels i ∈ freezeLabels labels maxArea
          · rw [if_pos hi] at he
            exact absurd he (hnl i)
          · rw [if_neg hi] at he
            rcases hI4 i with h0 | ⟨j, hj⟩
            · rw [h0] at he; omega
            · rw [hj] at he
              exact absurd he (hnl j)
        · intro he
          exact absurd he (hnl i)
    · intro i hp
      rw [hout i]
      by_cases hi : labels i ∈ freezeLabels labels maxArea
      · rw [if_pos hi]
        exact Or.inl rfl
      · rw [if_neg hi]
        have h3 := hI3 i hp hi
        have hml := mvalOf_le_one mask hmask i
        rcases Nat.le_one_iff_eq_zero_or_eq_one.1 hml with h | h <;> rw [h] at h3
        · right; rw [h3, mul_zero]
        · left; rw [h3, mul_one]

/-- Witness for `expand_labels_frozen_and_no_overlap` on a concrete
2-pixel image with the identity expansion primitive. -/
theorem expand_labels_frozen_and_no_overlap_witness :
    idxSet (expandLabels id (![1, 0] : Fin 2 → ℕ) 1 1 none) 1 =
      idxSet (![1, 0] : Fin 2 → ℕ) 1 :=
  (expand_labels_frozen_and_no_overlap id ![1, 0] 1 1 none
    (fun _ _ => Or.inl rfl)
    (fun m h => by cases h)
    (fun k hk hk' => by omega)).1 1 (by norm_num) (by decide)

/-! ## Connected-component splitting: `_label_connected_components`
(label.py lines 189–234)

The external `cv2.connectedComponentsWithStats(X)` labeling is the input
`comp` (its per-label areas are exactly the label counts); the relabeled
erosion output `cv2.connectedComponents(safe_erode(subset))` is the input
`labels0`.  The repository's own logic — oversize-label selection, the
expansion call, the label-fixing remap and the restore outside the
subset — is translated directly. -/

/-- `np.where(areas > max_area)[0]` with the `label > 0` guard: the
oversize labels, in increasing order (`subset_labels`). -/
def subsetLabels {n : ℕ} (comp : Fin n → ℕ) (maxArea : ℕ) : List ℕ :=
  (List.range (maxVal comp + 1)).filter fun l => decide (0 < l ∧ maxArea < cnt comp l)

/-- The boolean `subset` array: pixels of oversize components. -/
def subsetMask {n : ℕ} (comp : Fin n → ℕ) (maxArea : ℕ) : Fin n → Bool := fun i =>
  decide (comp i ∈ subsetLabels comp maxArea)

/-- The label remap of the fixing loop (label.py lines 228–230):
`subset_labels[label - 1]` when the split label indexes a reused oversize
label, else `max_label + label - len(subset_labels)`. -/
def fixLabel {n : ℕ} (comp : Fin n → ℕ) (maxArea l : ℕ) : ℕ :=
  if l ≤ (subsetLabels comp maxArea).length then (subsetLabels comp maxArea).getD (l - 1) 0
  else maxVal comp + l - (subsetLabels comp maxArea).length

/-- `np.unique(expanded)` restricted by the `label > 0` guard. -/
def uniquePos {n : ℕ} (a : Fin n → ℕ) : List ℕ :=
  (List.range (maxVal a + 1)).filter fun l => decide (0 < l ∧ 0 < cnt a l)

/-- The fixing loop: `fixed = expanded.copy()`, then rewrite each positive
label of `expanded` through `fixLabel`. -/
def fixStage {n : ℕ} (comp : Fin n → ℕ) (maxArea : ℕ) (expanded : Fin n → ℕ) :
    Fin n → ℕ :=
  (uniquePos expanded).foldl
    (fun f l => fun i => if expanded i = l then fixLabel comp maxArea l else f i) expanded

/-- `_label_connected_components` from the `cv2` results onward: expand
the split labels within the subset, remap them, and restore the original
component labels outside the subset. -/
def labelCC {n : ℕ} (comp labels0 : Fin n → ℕ) (prim : (Fin n → ℕ) → Fin n → ℕ)
    (distance maxArea : ℕ) : Fin n → ℕ :=
  let sm := subsetMask comp maxArea
  let expanded := expandLabels prim labels0 distance maxArea
    (some fun i => if sm i then 1 else 0)
  let fixed := fixStage comp maxArea expanded
  fun i => if sm i then fixed i else comp i

/-- The expansion stage of `labelCC`, exposed for stating properties. -/
def labelCCExpanded {n : ℕ} (comp labels0 : Fin n → ℕ) (prim : (Fin n → ℕ) → Fin n → ℕ)
    (distance maxArea : ℕ) : Fin n → ℕ :=
  expandLabels prim labels0 distance maxArea
    (some fun i => if subsetMask comp maxArea i then 1 else 0)

theorem labelCC_apply {n : ℕ} (comp labels0 : Fin n → ℕ) (prim : (Fin n → ℕ) → Fin n → ℕ)
    (distance maxArea : ℕ) (i : Fin n) :
    labelCC comp labels0 prim distance maxArea i =
      if subsetMask comp maxArea i
      then fixStage comp maxArea (labelCCExpanded comp labels0 prim distance maxArea) i
      else comp i := rfl

theorem fixFold_apply {n : ℕ} (comp : Fin n → ℕ) (maxArea : ℕ) (exp : Fin n → ℕ) :
    ∀ (L : List ℕ) (f : Fin n → ℕ) (i : Fin n),
      (L.foldl (fun f l => fun i => if exp i = l then fixLabel comp maxArea l else f i) f) i =
        if exp i ∈ L then fixLabel comp maxArea (exp i) else f i := by
  intro L
  induction L with
  | nil => intro f i; simp
  | cons l L ih =>
    intro f i
    rw [List.foldl_cons, ih]
    by_cases h1 : exp i ∈ L
    · simp [h1]
    · by_cases h2 : exp i = l
      · simp [h1, h2]
      · simp [h1, h2]

theorem fixStage_apply {n : ℕ} (comp : Fin n → ℕ) (maxArea : ℕ) (exp : Fin n → ℕ)
    (i : Fin n) :
    fixStage comp maxArea exp i =
      if exp i ∈ uniquePos exp then fixLabel comp maxArea (exp i) else exp i :=
  fixFold_apply comp maxArea exp (uniquePos exp) exp i

theorem mem_uniquePos {n : ℕ} (a : Fin n → ℕ) (l : ℕ) :
    l ∈ uniquePos a ↔ l < maxVal a + 1 ∧ 0 < l ∧ 0 < cnt a l := by
  simp [uniquePos, List.mem_filter, List.mem_range]

theorem self_mem_uniquePos {n : ℕ} (a : Fin n → ℕ) (i : Fin n) (h : 0 < a i) :
    a i ∈ uniquePos a := by
  rw [mem_uniquePos]
  refine ⟨by have := label_le_maxVal a i; omega, h, ?_⟩
  exact Finset.card_pos.2 ⟨i, (mem_idxSet a (a i) i).2 rfl⟩

theorem mem_subsetLabels {n : ℕ} (comp : Fin n → ℕ) (mA l : ℕ) :
    l ∈ subsetLabels comp mA ↔ l < maxVal comp + 1 ∧ 0 < l ∧ mA < cnt comp l := by
  simp [subsetLabels, List.mem_filter, List.mem_range]

theorem fixLabel_reused_mem {n : ℕ} (comp : Fin n → ℕ) (mA l : ℕ) (h0 : 0 < l)
    (hle : l ≤ (subsetLabels comp mA).length) :
    fixLabel comp mA l ∈ subsetLabels comp mA := by
  unfold fixLabel
  rw [if_pos hle]
  have hlt : l - 1 < (subsetLabels comp mA).length := by omega
  rw [List.getD_eq_getElem _ _ hlt]
  exact List.getElem_mem hlt

theorem fixLabel_fresh {n : ℕ} (comp : Fin n → ℕ) (mA l : ℕ)
    (h : (subsetLabels comp mA).length < l) :
    fixLabel comp mA l = maxVal comp + l - (subsetLabels comp mA).length ∧
    maxVal comp < fixLabel comp mA l := by
  unfold fixLabel
  rw [if_neg (by omega)]
  exact ⟨rfl, by omega⟩

/-- C6: in the output of `_label_connected_components`, every positive
label written on the subset (a freshly split sub-label) differs from every
originally-small component identifier — reused identifiers come from the
oversize `subset_labels` (area strictly above `max_area`), and fresh
identifiers are `max_label + label - len(subset_labels)`, sequential
values strictly greater than the maximum pre-existing label.  This holds
for every external erosion/relabeling result `labels0` and every expansion
primitive. -/
theorem label_cc_no_collision {n : ℕ} (comp labels0 : Fin n → ℕ)
    (prim : (Fin n → ℕ) → Fin n → ℕ) (distance maxArea : ℕ) :
    (∀ i, subsetMask comp maxArea i = true →
      0 < labelCC comp labels0 prim distance maxArea i →
      ∀ m, 0 < m → 0 < cnt comp m → cnt comp m ≤ maxArea →
        labelCC comp labels0 prim distance maxArea i ≠ m) ∧
    (∀ l, (subsetLabels comp maxArea).length < l →
      fixLabel comp maxArea l = maxVal comp + l - (subsetLabels comp maxArea).length ∧
      maxVal comp < fixLabel comp maxArea l) := by
  constructor
  · intro i hsm hpos m hm hcm hcs
    rw [labelCC_apply] at hpos ⊢
    rw [if_pos hsm] at hpos ⊢
    set e := labelCCExpanded comp labels0 prim distance maxArea with he
    rw [fixStage_apply] at hpos ⊢
    by_cases hei : 0 < e i
    · rw [if_pos (self_mem_uniquePos e i hei)] at hpos ⊢
      by_cases hle : e i ≤ (subsetLabels comp maxArea).length
      · have hmem := fixLabel_reused_mem comp maxArea (e i) hei hle
        have harea := ((mem_subsetLabels comp maxArea _).1 hmem).2.2
        intro hc
        rw [hc] at harea
        omega
      · have hfr := fixLabel_fresh comp maxArea (e i) (by omega)
        have hmle : m ≤ maxVal comp := by
          obtain ⟨j, hj⟩ := Finset.card_pos.1 hcm
          have h1 : comp j = m := (mem_idxSet comp m j).1 hj
          have h2 := label_le_maxVal comp j
          omega
        omega
    · rw [if_neg (fun hc => hei (((mem_uniquePos e _).1 hc).2.1))] at hpos
      omega
  · exact fun l h => fixLabel_fresh comp maxArea l h

/-- Witness for `label_cc_no_collision`: components `[1,1,2,0]` with
`max_area = 1` have oversize label 1 and small label 2; the split label at
pixel 0 is remapped to the reused identifier 1 ≠ 2. -/
theorem label_cc_no_collision_witness :
    labelCC (![1, 1, 2, 0] : Fin 4 → ℕ) ![1, 0, 0, 0] id 0 1 0 ≠ 2 :=
  (label_cc_no_collision (![1, 1, 2, 0] : Fin 4 → ℕ) ![1, 0, 0, 0] id 0 1).1
    0 (by decide) (by decide) 2 (by decide) (by decide) (by decide)

/-! ## The full splitting pipeline, including erosion
(label.py lines 211–234 together with `utils.safe_erode`)

The 2-D grid is a flat `Fin n` array of row width `w` (row-major).
`cv2.erode` with the default border value does not erode at the image
frame, so out-of-frame neighbours count as foreground. -/

/-- The number of foreground pixels of a boolean mask. -/
def cntTrue {n : ℕ} (m : Fin n → Bool) : ℕ :=
  (Finset.univ.filter fun i => m i = true).card

/-- A connected-components area oracle that is correct for masks whose
foreground is empty or a single component: one stat entry holding the
foreground area. -/
def areasOracle {n : ℕ} (m : Fin n → Bool) : List ℕ :=
  if cntTrue m = 0 then [] else [cntTrue m]

/-- A `cv2.connectedComponents` oracle that is correct for masks whose
foreground is empty or a single component: label 1 on the foreground. -/
def cc2Oracle {n : ℕ} (m : Fin n → Bool) : Fin n → ℕ := fun i =>
  if m i then 1 else 0

/-- One `cv2.erode` with the 3×3 cross kernel on a width-`w` grid; with
cv2's default border value, out-of-frame neighbours do not erode. -/
def crossErode (w : ℕ) {n : ℕ} (m : Fin n → Bool) : Fin n → Bool := fun i =>
  m i
  && (if w ≤ i.val then m ⟨i.val - w, lt_of_le_of_lt (Nat.sub_le _ _) i.isLt⟩ else true)
  && (if h : i.val + w < n then m ⟨i.val + w, h⟩ else true)
  && (if i.val % w = 0 then true
      else m ⟨i.val - 1, lt_of_le_of_lt (Nat.sub_le _ _) i.isLt⟩)
  && (if h : i.val % w ≠ w - 1 ∧ i.val + 1 < n then m ⟨i.val + 1, h.2⟩ else true)

/-- A concrete instance of the external `skimage` expansion primitive at
`distance=1` on a width-`w` grid: a zero pixel takes the label of an
adjacent labeled pixel (up/down/left/right priority; used only on inputs
where the choice is immaterial). -/
def gridExpand (w : ℕ) {n : ℕ} (a : Fin n → ℕ) : Fin n → ℕ := fun i =>
  let get : ℕ → Bool → ℕ := fun j inframe =>
    if h : j < n then (if inframe then a ⟨j, h⟩ else 0) else 0
  if a i ≠ 0 then a i
  else
    let up := get (i.val - w) (decide (w ≤ i.val))
    let down := get (i.val + w) true
    let left := get (i.val - 1) (decide (i.val % w ≠ 0))
    let right := get (i.val + 1) (decide ((i.val + 1) % w ≠ 0))
    if up ≠ 0 then up else if down ≠ 0 then down else if left ≠ 0 then left else right

/-- Modelled from the spec: `utils.safe_erode` is code of this repository
that is not under src/.  Per §4.4 of the spec and the docstrings in
label.py, with `n_iter = -1` it continues eroding "until every label is
less than `min_area`"; fragment areas come from an external
connected-components-with-stats call (`areasOf`) and a single erosion is
the external morphology primitive (`erode1`).  The unbounded loop carries
explicit fuel. -/
def safeErode {n : ℕ} (areasOf : (Fin n → Bool) → List ℕ) (minArea : ℕ)
    (erode1 : (Fin n → Bool) → Fin n → Bool) : ℕ → (Fin n → Bool) → Fin n → Bool
  | 0, m => m
  | fuel + 1, m =>
    if (areasOf m).all fun a => decide (a < minArea) then m
    else safeErode areasOf minArea erode1 fuel (erode1 m)

theorem safeErode_succ {n : ℕ} (areasOf : (Fin n → Bool) → List ℕ) (minArea : ℕ)
    (erode1 : (Fin n → Bool) → Fin n → Bool) (fuel : ℕ) (m : Fin n → Bool) :
    safeErode areasOf minArea erode1 (fuel + 1) m =
      if (areasOf m).all fun a => decide (a < minArea) then m
      else safeErode areasOf minArea erode1 fuel (erode1 m) := rfl

/-- `_label_connected_components` with the erosion stage included: the
subset of oversize components is eroded (`safe_erode`), relabeled by the
external connected-components call, expanded and fixed. -/
def labelCCFull {n : ℕ} (comp : Fin n → ℕ) (areasOf : (Fin n → Bool) → List ℕ)
    (cc2 : (Fin n → Bool) → Fin n → ℕ) (erode1 : (Fin n → Bool) → Fin n → Bool)
    (prim : (Fin n → ℕ) → Fin n → ℕ) (minArea distance maxArea fuel : ℕ) : Fin n → ℕ :=
  labelCC comp (cc2 (safeErode areasOf minArea erode1 fuel (subsetMask comp maxArea)))
    prim distance maxArea

/-- The expansion stage of `labelCCFull` (the array whose positive labels
the fixing loop remaps). -/
def labelCCFullE {n : ℕ} (comp : Fin n → ℕ) (areasOf : (Fin n → Bool) → List ℕ)
    (cc2 : (Fin n → Bool) → Fin n → ℕ) (erode1 : (Fin n → Bool) → Fin n → Bool)
    (prim : (Fin n → ℕ) → Fin n → ℕ) (minArea distance maxArea fuel : ℕ) : Fin n → ℕ :=
  labelCCExpanded comp (cc2 (safeErode areasOf minArea erode1 fuel (subsetMask comp maxArea)))
    prim distance maxArea

/-! ### Zero-image lemmas -/

theorem maxVal_zero {n : ℕ} : maxVal (fun _ : Fin n => 0) = 0 := by
  have h : maxVal (fun _ : Fin n => (0 : ℕ)) ≤ 0 := Finset.sup_le fun i _ => le_refl 0
  omega

theorem freezeLabels_zero {n : ℕ} (mA : ℕ) :
    freezeLabels (fun _ : Fin n => 0) mA = [] := by
  unfold freezeLabels
  rw [maxVal_zero]
  rw [show List.range 1 = [0] from rfl]
  rw [List.filter_cons, List.filter_nil]
  rw [show (decide (0 < 0 ∧ mA ≤ cnt (fun _ : Fin n => 0) 0)) = false from by
    rw [decide_eq_false_iff_not]; omega]
  rfl

theorem uniquePos_zero {n : ℕ} : uniquePos (fun _ : Fin n => 0) = [] := by
  unfold uniquePos
  rw [maxVal_zero]
  rw [show List.range 1 = [0] from rfl]
  rw [List.filter_cons, List.filter_nil]
  rw [show (decide (0 < 0 ∧ 0 < cnt (fun _ : Fin n => 0) 0)) = false from by
    rw [decide_eq_false_iff_not]; omega]
  rfl

theorem applyMask_zero {n : ℕ} (mask : Option (Fin n → ℕ)) :
    applyMask mask (fun _ => 0) = fun _ => 0 := by
  cases mask with
  | none => rfl
  | some m => funext i; show 0 * m i = 0; rw [zero_mul]

theorem expandIter_zero {n : ℕ} (prim : (Fin n → ℕ) → Fin n → ℕ) (mA : ℕ)
    (mask : Option (Fin n → ℕ)) (hz : prim (fun _ => 0) = fun _ => 0) (sv : Saved n) :
    expandIter prim mA mask ((fun _ => 0), sv) = ((fun _ => 0), sv) := by
  unfold expandIter
  rw [freezeStep_of_empty _ _ (freezeLabels_zero mA)]
  dsimp only
  rw [hz, applyMask_zero]

theorem expandN_zero {n : ℕ} (prim : (Fin n → ℕ) → Fin n → ℕ) (mA : ℕ)
    (mask : Option (Fin n → ℕ)) (hz : prim (fun _ => 0) = fun _ => 0) :
    ∀ k, expandN prim mA mask k ((fun _ => 0), ([] : Saved n)) = ((fun _ => 0), []) := by
  intro k
  induction k with
  | zero => rfl
  | succ k ih =>
    show expandIter prim mA mask (expandN prim mA mask k ((fun _ => 0), [])) = _
    rw [ih, expandIter_zero prim mA mask hz]

theorem expandLabels_zero {n : ℕ} (prim : (Fin n → ℕ) → Fin n → ℕ) (d mA : ℕ)
    (mask : Option (Fin n → ℕ)) (hz : prim (fun _ => 0) = fun _ => 0) :
    expandLabels prim (fun _ : Fin n => 0) d mA mask = fun _ => 0 := by
  show restoreSaved (expandN prim mA mask d ((fun _ => 0), [])).1
    (expandN prim mA mask d ((fun _ => 0), [])).2 = _
  rw [expandN_zero prim mA mask hz d]
  rfl

theorem labelCC_of_zero_labels {n : ℕ} (comp : Fin n → ℕ)
    (prim : (Fin n → ℕ) → Fin n → ℕ) (d mA : ℕ) (hz : prim (fun _ => 0) = fun _ => 0) :
    labelCC comp (fun _ => 0) prim d mA =
      fun i => if subsetMask comp mA i then 0 else comp i := by
  funext i
  rw [labelCC_apply]
  have hE : labelCCExpanded comp (fun _ => 0) prim d mA = fun _ => 0 :=
    expandLabels_zero prim d mA _ hz
  rw [hE]
  by_cases hsm : subsetMask comp mA i
  · rw [if_pos hsm, if_pos hsm, fixStage_apply]
    rw [if_neg fun hc => by have := ((mem_uniquePos _ _).1 hc).2.1; omega]
  · rw [if_neg hsm, if_neg hsm]

/-! ### Injectivity and positivity of the label remap -/

theorem subsetLabels_nodup {n : ℕ} (comp : Fin n → ℕ) (mA : ℕ) :
    (subsetLabels comp mA).Nodup :=
  List.Nodup.filter _ (List.nodup_range _)

theorem fixLabel_pos {n : ℕ} (comp : Fin n → ℕ) (mA l : ℕ) (h0 : 0 < l) :
    0 < fixLabel comp mA l := by
  by_cases hle : l ≤ (subsetLabels comp mA).length
  · have hmem := fixLabel_reused_mem comp mA l h0 hle
    have := ((mem_subsetLabels comp mA _).1 hmem).2.1
    omega
  · have := (fixLabel_fresh comp mA l (by omega)).2
    omega

theorem fixLabel_inj {n : ℕ} (comp : Fin n → ℕ) (mA l1 l2 : ℕ) (h1 : 0 < l1)
    (h2 : 0 < l2) (hne : l1 ≠ l2) : fixLabel comp mA l1 ≠ fixLabel comp mA l2 := by
  have hnd := subsetLabels_nodup comp mA
  have hreM : ∀ l, 0 < l → l ≤ (subsetLabels comp mA).length →
      fixLabel comp mA l ≤ maxVal comp := by
    intro l hl hle
    have := ((mem_subsetLabels comp mA _).1 (fixLabel_reused_mem comp mA l hl hle)).1
    omega
  by_cases hle1 : l1 ≤ (subsetLabels comp mA).length
    <;> by_cases hle2 : l2 ≤ (subsetLabels comp mA).length
  · unfold fixLabel
    rw [if_pos hle1, if_pos hle2]
    rw [List.getD_eq_getElem _ _ (by omega), List.getD_eq_getElem _ _ (by omega)]
    intro hc
    have := (List.Nodup.getElem_inj_iff hnd).1 hc
    omega
  · have ha := hreM l1 h1 hle1
    have hb := (fixLabel_fresh comp mA l2 (by omega)).2
    omega
  · have ha := hreM l2 h2 hle2
    have hb := (fixLabel_fresh comp mA l1 (by omega)).2
    omega
  · have ha := (fixLabel_fresh comp mA l1 (by omega)).1
    have hb := (fixLabel_fresh comp mA l2 (by omega)).1
    omega

theorem subsetMask_true_iff {n : ℕ} (comp : Fin n → ℕ) (mA : ℕ) (i : Fin n) :
    subsetMask comp mA i = true ↔ comp i ∈ subsetLabels comp mA := by
  unfold subsetMask
  rw [decide_eq_true_eq]

/-- C9 (amended): for a component labeling with a single positive label
`L` of area 1000 and `max_area = 400`, for every external erosion,
relabeling and expansion: every positive pixel of the
`_label_connected_components` output lies inside the original component,
and distinct positive fragments of the expanded stage receive distinct
positive output labels — so the output has at least 2 distinct positive
labels exactly when the eroded-and-expanded stage retains at least 2;
producing ≥ 2 labels (or covering the whole component) is not guaranteed
in general, as the counterexample shows. -/
theorem label_cc_split_amended {n : ℕ} (comp : Fin n → ℕ) (L : ℕ)
    (areasOf : (Fin n → Bool) → List ℕ) (cc2 : (Fin n → Bool) → Fin n → ℕ)
    (erode1 : (Fin n → Bool) → Fin n → Bool) (prim : (Fin n → ℕ) → Fin n → ℕ)
    (minArea distance fuel : ℕ)
    (hL : 0 < L) (hone : ∀ i, 0 < comp i → comp i = L) (harea : cnt comp L = 1000) :
    (∀ i, 0 < labelCCFull comp areasOf cc2 erode1 prim minArea distance 400 fuel i →
      comp i = L) ∧
    (∀ i1 i2 : Fin n,
      subsetMask comp 400 i1 = true → subsetMask comp 400 i2 = true →
      0 < labelCCFullE comp areasOf cc2 erode1 prim minArea distance 400 fuel i1 →
      0 < labelCCFullE comp areasOf cc2 erode1 prim minArea distance 400 fuel i2 →
      labelCCFullE comp areasOf cc2 erode1 prim minArea distance 400 fuel i1 ≠
        labelCCFullE comp areasOf cc2 erode1 prim minArea distance 400 fuel i2 →
      labelCCFull comp areasOf cc2 erode1 prim minArea distance 400 fuel i1 ≠
        labelCCFull comp areasOf cc2 erode1 prim minArea distance 400 fuel i2 ∧
      0 < labelCCFull comp areasOf cc2 erode1 prim minArea distance 400 fuel i1) := by
  have hLmem : L ∈ subsetLabels comp 400 := by
    rw [mem_subsetLabels]
    obtain ⟨j, hj⟩ := Finset.card_pos.1 (show 0 < cnt comp L by omega)
    have h1 : comp j = L := (mem_idxSet comp L j).1 hj
    have h2 := label_le_maxVal comp j
    exact ⟨by omega, hL, by omega⟩
  have hofull : ∀ i, labelCCFull comp areasOf cc2 erode1 prim minArea distance 400 fuel i =
      if subsetMask comp 400 i
      then fixStage comp 400 (labelCCFullE comp areasOf cc2 erode1 prim minArea distance 400 fuel) i
      else comp i := fun i => labelCC_apply _ _ _ _ _ i
  constructor
  · intro i hpos
    by_cases hsm : subsetMask comp 400 i = true
    · have := (subsetMask_true_iff comp 400 i).1 hsm
      exact hone i ((mem_subsetLabels comp 400 _).1 this).2.1
    · rw [hofull i, if_neg (by simpa using hsm)] at hpos
      have hceq := hone i hpos
      exact absurd ((subsetMask_true_iff comp 400 i).2 (hceq ▸ hLmem)) hsm
  · intro i1 i2 hs1 hs2 he1 he2 hne
    set E := labelCCFullE comp areasOf cc2 erode1 prim minArea distance 400 fuel with hE
    have ho1 : labelCCFull comp areasOf cc2 erode1 prim minArea distance 400 fuel i1 =
        fixLabel comp 400 (E i1) := by
      rw [hofull i1, if_pos hs1, fixStage_apply, if_pos (self_mem_uniquePos E i1 he1)]
    have ho2 : labelCCFull comp areasOf cc2 erode1 prim minArea distance 400 fuel i2 =
        fixLabel comp 400 (E i2) := by
      rw [hofull i2, if_pos hs2, fixStage_apply, if_pos (self_mem_uniquePos E i2 he2)]
    rw [ho1, ho2]
    exact ⟨fixLabel_inj comp 400 (E i1) (E i2) he1 he2 hne, fixLabel_pos comp 400 _ he1⟩

/-! ### The annihilation scenario: a 1000-pixel single component that
vanishes under erosion

On a 3×1000 grid whose foreground is the entire middle row (a single
connected component of area 1000), every foreground pixel has a background
in-frame vertical neighbour, so one cross-kernel erosion empties the mask;
`safe_erode` with `min_area = 100` erodes once (area 1000 ≥ 100) and
stops on the empty mask.  The split stage then has no fragments at all
and the output contains no positive label. -/

/-- The middle row of the 3×1000 grid, as a boolean mask. -/
def mRow : Fin 3000 → Bool := fun i => decide (1000 ≤ i.val ∧ i.val < 2000)

/-- The `cv2.connectedComponentsWithStats` labeling of `mRow`: one
component, label 1. -/
def comp0 : Fin 3000 → ℕ := fun i => if 1000 ≤ i.val ∧ i.val < 2000 then 1 else 0

theorem comp0_area : cnt comp0 1 = 1000 := by
  unfold cnt idxSet
  have himg : (Finset.univ.filter fun i : Fin 3000 => comp0 i = 1) =
      Finset.univ.image (fun j : Fin 1000 => (⟨j.val + 1000, by omega⟩ : Fin 3000)) := by
    ext i
    rw [Finset.mem_filter, Finset.mem_image]
    unfold comp0
    constructor
    · rintro ⟨-, h⟩
      have hc : 1000 ≤ i.val ∧ i.val < 2000 := by
        by_contra hc
        rw [if_neg hc] at h
        exact absurd h (by omega)
      refine ⟨⟨i.val - 1000, by omega⟩, Finset.mem_univ _, ?_⟩
      apply Fin.ext
      show i.val - 1000 + 1000 = i.val
      omega
    · rintro ⟨j, -, rfl⟩
      have hj := j.isLt
      refine ⟨Finset.mem_univ _, ?_⟩
      rw [if_pos ⟨by show 1000 ≤ j.val + 1000; omega, by show j.val + 1000 < 2000; omega⟩]
  rw [himg, Finset.card_image_of_injective, Finset.card_univ, Fintype.card_fin]
  intro a b hab
  have := congrArg Fin.val hab
  simp only [] at this
  apply Fin.ext
  omega

theorem comp0_vals (i : Fin 3000) : comp0 i = 0 ∨ comp0 i = 1 := by
  unfold comp0
  split
  · exact Or.inr rfl
  · exact Or.inl rfl

theorem comp0_maxVal : maxVal comp0 = 1 := by
  apply Nat.le_antisymm
  · apply Finset.sup_le
    intro i _
    unfold comp0
    split <;> omega
  · have h := label_le_maxVal comp0 ⟨1500, by omega⟩
    have he : comp0 ⟨1500, by omega⟩ = 1 := by
      unfold comp0
      rw [if_pos ⟨by show (1000 : ℕ) ≤ 1500; omega, by show (1500 : ℕ) < 2000; omega⟩]
    omega

theorem comp0_uniquePos : uniquePos comp0 = [1] := by
  unfold uniquePos
  rw [comp0_maxVal]
  rw [show List.range 2 = [0, 1] from rfl]
  rw [List.filter_cons, List.filter_cons, List.filter_nil]
  rw [show (decide (0 < 0 ∧ 0 < cnt comp0 0)) = false from by
    rw [decide_eq_false_iff_not]; omega]
  rw [show (decide (0 < 1 ∧ 0 < cnt comp0 1)) = true from by
    rw [decide_eq_true_eq, comp0_area]; omega]
  rfl

theorem comp0_subsetLabels : subsetLabels comp0 400 = [1] := by
  unfold subsetLabels
  rw [comp0_maxVal]
  rw [show List.range 2 = [0, 1] from rfl]
  rw [List.filter_cons, List.filter_cons, List.filter_nil]
  rw [show (decide (0 < 0 ∧ 400 < cnt comp0 0)) = false from by
    rw [decide_eq_false_iff_not]; omega]
  rw [show (decide (0 < 1 ∧ 400 < cnt comp0 1)) = true from by
    rw [decide_eq_true_eq, comp0_area]; omega]
  rfl

theorem comp0_subsetMask : subsetMask comp0 400 = mRow := by
  funext i
  unfold subsetMask mRow
  rw [comp0_subsetLabels]
  by_cases h : 1000 ≤ i.val ∧ i.val < 2000
  · have hc : comp0 i = 1 := by unfold comp0; rw [if_pos h]
    simp [hc, h]
  · have hc : comp0 i = 0 := by unfold comp0; rw [if_neg h]
    simp [hc, h]

theorem mRow_cntTrue : cntTrue mRow = 1000 := by
  unfold cntTrue
  have heq : (Finset.univ.filter fun i => mRow i = true) = idxSet comp0 1 := by
    ext i
    rw [Finset.mem_filter, mem_idxSet]
    unfold mRow comp0
    by_cases h : 1000 ≤ i.val ∧ i.val < 2000
    · simp [h]
    · simp [h]
  rw [heq]
  exact comp0_area

theorem areasOracle_mRow : areasOracle mRow = [1000] := by
  unfold areasOracle
  rw [mRow_cntTrue]
  rfl

theorem areasOracle_bot {n : ℕ} : areasOracle (fun _ : Fin n => false) = [] := by
  unfold areasOracle cntTrue
  rw [if_pos]
  rw [Finset.card_eq_zero]
  ext i
  simp

theorem mRow_out (j : Fin 3000) (h : j.val < 1000) : mRow j = false := by
  unfold mRow
  rw [decide_eq_false_iff_not]
  omega

theorem crossErode_mRow : crossErode 1000 mRow = fun _ => false := by
  funext i
  unfold crossErode
  by_cases h : 1000 ≤ i.val ∧ i.val < 2000
  · have hup : mRow ⟨i.val - 1000, lt_of_le_of_lt (Nat.sub_le _ _) i.isLt⟩ = false := by
      apply mRow_out
      show i.val - 1000 < 1000
      omega
    rw [if_pos h.1, hup]
    simp
  · rw [show mRow i = false from by unfold mRow; rw [decide_eq_false_iff_not]; exact h]
    simp

theorem cc2Oracle_bot {n : ℕ} : cc2Oracle (fun _ : Fin n => false) = fun _ => 0 := by
  funext i
  unfold cc2Oracle
  rfl

theorem gridExpand_zero (w : ℕ) {n : ℕ} : gridExpand w (fun _ : Fin n => 0) = fun _ => 0 := by
  funext i
  unfold gridExpand
  have hget : ∀ (j : ℕ) (b : Bool),
      (if h : j < n then (if b then (fun _ : Fin n => (0 : ℕ)) ⟨j, h⟩ else 0) else 0) = 0 := by
    intro j b
    split
    · split <;> rfl
    · rfl
  simp only [hget]
  simp

theorem safeErode_scenario :
    safeErode areasOracle 100 (crossErode 1000) 2 mRow = fun _ => false := by
  rw [show (2 : ℕ) = 1 + 1 from rfl, safeErode_succ, areasOracle_mRow]
  rw [show (([1000].all fun a => decide (a < 100)) = false) from by decide]
  rw [if_neg (by simp), crossErode_mRow]
  rw [show (1 : ℕ) = 0 + 1 from rfl, safeErode_succ, areasOracle_bot]
  rfl

/-- C9 counterexample: the mask whose foreground is the middle row of a
3×1000 grid is a single connected component of area 1000 (its labeling
`comp0` has exactly one positive label, 1, of area 1000), yet with
`max_area = 400` (and the default `k = 3`, `min_area = 100`,
`n_iter = -1`, `distance = 5`) the whole component is annihilated by the
first erosion, the split stage has no fragments, and the output contains
no positive label at all — neither are ≥ 2 labels produced, nor does the
union of output label pixels equal the component. -/
theorem label_cc_split_annihilated :
    uniquePos comp0 = [1] ∧
    cnt comp0 1 = 1000 ∧
    labelCCFull comp0 areasOracle cc2Oracle (crossErode 1000) (gridExpand 1000)
      100 5 400 2 = (fun _ => 0) ∧
    uniquePos (labelCCFull comp0 areasOracle cc2Oracle (crossErode 1000) (gridExpand 1000)
      100 5 400 2) = [] := by
  have hout : labelCCFull comp0 areasOracle cc2Oracle (crossErode 1000) (gridExpand 1000)
      100 5 400 2 = (fun _ => 0) := by
    unfold labelCCFull
    rw [comp0_subsetMask, safeErode_scenario, cc2Oracle_bot]
    rw [labelCC_of_zero_labels comp0 (gridExpand 1000) 5 400 (gridExpand_zero 1000)]
    funext i
    by_cases hsm : subsetMask comp0 400 i
    · rw [if_pos hsm]
    · rw [if_neg hsm]
      rcases comp0_vals i with h | h
      · exact h
      · exact absurd ((subsetMask_true_iff comp0 400 i).2
          (by rw [h, comp0_subsetLabels]; exact List.mem_singleton.2 rfl)) hsm
  exact ⟨comp0_uniquePos, comp0_area, hout, by rw [hout]; exact uniquePos_zero⟩

/-- An external relabeling that splits the middle row into two fragments
(used to witness the distinct-fragments case of the amended claim). -/
def cc2Two (m : Fin 3000 → Bool) : Fin 3000 → ℕ := fun i =>
  if m i then (if i.val < 1500 then 1 else 2) else 0

/-- An area oracle reporting no oversize fragments, so `safe_erode`
stops immediately. -/
def areasNone {n : ℕ} : (Fin n → Bool) → List ℕ := fun _ => []

theorem safeErode_areasNone {n : ℕ} (mi : ℕ) (e1 : (Fin n → Bool) → Fin n → Bool)
    (m : Fin n → Bool) (fuel : ℕ) : safeErode areasNone mi e1 (fuel + 1) m = m := by
  rw [safeErode_succ]
  rfl

theorem labelCCFullE_two :
    labelCCFullE comp0 areasNone cc2Two (crossErode 1000) (gridExpand 1000) 100 0 400 1 =
      cc2Two mRow := by
  unfold labelCCFullE
  rw [show safeErode areasNone 100 (crossErode 1000) 1 (subsetMask comp0 400) =
      subsetMask comp0 400 from
    safeErode_areasNone 100 (crossErode 1000) (subsetMask comp0 400) 0]
  rw [comp0_subsetMask]
  rfl

/-- Witness for `label_cc_split_amended` at the concrete `comp0` labeling
(single positive label 1, area 1000), with an erosion stage that retains
two fragments on the row: the two fragments receive distinct positive
output labels. -/
theorem label_cc_split_amended_witness :
    labelCCFull comp0 areasNone cc2Two (crossErode 1000) (gridExpand 1000)
        100 0 400 1 ⟨1000, by omega⟩ ≠
      labelCCFull comp0 areasNone cc2Two (crossErode 1000) (gridExpand 1000)
        100 0 400 1 ⟨1600, by omega⟩ ∧
    0 < labelCCFull comp0 areasNone cc2Two (crossErode 1000) (gridExpand 1000)
        100 0 400 1 ⟨1000, by omega⟩ := by
  have hs1 : subsetMask comp0 400 ⟨1000, by omega⟩ = true := by
    rw [comp0_subsetMask]
    rfl
  have hs2 : subsetMask comp0 400 ⟨1600, by omega⟩ = true := by
    rw [comp0_subsetMask]
    rfl
  have he1 : 0 < labelCCFullE comp0 areasNone cc2Two (crossErode 1000) (gridExpand 1000)
      100 0 400 1 ⟨1000, by omega⟩ := by
    rw [labelCCFullE_two]
    decide
  have he2 : 0 < labelCCFullE comp0 areasNone cc2Two (crossErode 1000) (gridExpand 1000)
      100 0 400 1 ⟨1600, by omega⟩ := by
    rw [labelCCFullE_two]
    decide
  have hne : labelCCFullE comp0 areasNone cc2Two (crossErode 1000) (gridExpand 1000)
      100 0 400 1 ⟨1000, by omega⟩ ≠
      labelCCFullE comp0 areasNone cc2Two (crossErode 1000) (gridExpand 1000)
        100 0 400 1 ⟨1600, by omega⟩ := by
    rw [labelCCFullE_two]
    decide
  exact (label_cc_split_amended comp0 1 areasNone cc2Two (crossErode 1000)
    (gridExpand 1000) 100 0 1 (by omega)
    (fun i hi => by
      rcases comp0_vals i with h | h
      · omega
      · exact h)
    comp0_area).2 ⟨1000, by omega⟩ ⟨1600, by omega⟩ hs1 hs2 he1 he2 hne

/-! ## Frame effect of `_expand_labels` (label.py lines 125–158)

A heap of label arrays, with references as indices.  The function's body
first allocates a fresh array with `expanded = labels.copy()`, then every
NumPy mutation (`expanded[where] = 0`, rebinding to the
`expand_labels` result, `expanded *= mask`, and the final restore writes)
targets only that fresh cell; the `labels` argument is never written. -/

/-- A heap of label arrays; references are list indices. -/
abbrev Heap (n : ℕ) := List (Fin n → ℕ)

/-- Read a reference (unallocated references read as the zero array). -/
def heapGet {n : ℕ} (h : Heap n) (r : ℕ) : Fin n → ℕ := h.getD r fun _ => 0

/-- Overwrite the array at a reference. -/
def heapSet {n : ℕ} (h : Heap n) (r : ℕ) (v : Fin n → ℕ) : Heap n := h.set r v

/-- The iteration loop of `_expand_labels` at the store level: each pass
reads the `expanded` cell, applies the freeze/expand/mask body, and writes
the result back to the same cell, threading the `saved` dict. -/
def expandStoreLoop {n : ℕ} (prim : (Fin n → ℕ) → Fin n → ℕ) (mA : ℕ)
    (mask : Option (Fin n → ℕ)) (er : ℕ) : ℕ → Heap n × Saved n → Heap n × Saved n
  | 0, hs => hs
  | k + 1, hs =>
    let hs' := expandStoreLoop prim mA mask er k hs
    let st := expandIter prim mA mask (heapGet hs'.1 er, hs'.2)
    (heapSet hs'.1 er st.1, st.2)

/-- `_expand_labels` at the store level: allocate `expanded` as a copy of
the argument, run the loop on that cell, write the restore pass to it, and
return its reference. -/
def expandLabelsStore {n : ℕ} (prim : (Fin n → ℕ) → Fin n → ℕ) (h : Heap n)
    (labelsRef : ℕ) (distance mA : ℕ) (mask : Option (Fin n → ℕ)) : Heap n × ℕ :=
  let er := h.length
  let h1 := h ++ [heapGet h labelsRef]
  let hs := expandStoreLoop prim mA mask er distance (h1, [])
  (heapSet hs.1 er (restoreSaved (heapGet hs.1 er) hs.2), er)

theorem heapGet_append {n : ℕ} (h : Heap n) (v : Fin n → ℕ) (r : ℕ) (hr : r < h.length) :
    heapGet (h ++ [v]) r = heapGet h r := by
  unfold heapGet
  rw [List.getD_append]
  exact hr

theorem heapGet_append_self {n : ℕ} (h : Heap n) (v : Fin n → ℕ) :
    heapGet (h ++ [v]) h.length = v := by
  unfold heapGet
  rw [List.getD_eq_getElem?_getD, List.getElem?_concat_length]
  rfl

theorem heapGet_set_ne {n : ℕ} (h : Heap n) (r r' : ℕ) (v : Fin n → ℕ) (hne : r ≠ r') :
    heapGet (heapSet h r v) r' = heapGet h r' := by
  unfold heapGet heapSet
  rw [List.getD_eq_getElem?_getD, List.getElem?_set_ne hne, ← List.getD_eq_getElem?_getD]

theorem heapGet_set_self {n : ℕ} (h : Heap n) (r : ℕ) (v : Fin n → ℕ) (hr : r < h.length) :
    heapGet (heapSet h r v) r = v := by
  unfold heapGet heapSet
  rw [List.getD_eq_getElem?_getD, List.getElem?_set_eq_of_lt v hr]
  rfl

theorem expandStoreLoop_spec {n : ℕ} (prim : (Fin n → ℕ) → Fin n → ℕ) (mA : ℕ)
    (mask : Option (Fin n → ℕ)) (h : Heap n) (labelsRef : ℕ) :
    ∀ k,
      (expandStoreLoop prim mA mask h.length k (h ++ [heapGet h labelsRef], [])).1.length =
        h.length + 1 ∧
      (∀ r, r < h.length →
        heapGet (expandStoreLoop prim mA mask h.length k (h ++ [heapGet h labelsRef], [])).1 r =
          heapGet h r) ∧
      (heapGet (expandStoreLoop prim mA mask h.length k
          (h ++ [heapGet h labelsRef], [])).1 h.length,
        (expandStoreLoop prim mA mask h.length k (h ++ [heapGet h labelsRef], [])).2) =
        expandN prim mA mask k (heapGet h labelsRef, []) := by
  intro k
  induction k with
  | zero =>
    refine ⟨by show (h ++ [heapGet h labelsRef]).length = h.length + 1; simp,
      fun r hr => heapGet_append h _ r hr, ?_⟩
    show (heapGet (h ++ [heapGet h labelsRef]) h.length, ([] : Saved n)) = _
    rw [heapGet_append_self]
    rfl
  | succ k ih =>
    obtain ⟨hlen, hpres, hcell⟩ := ih
    refine ⟨?_, ?_, ?_⟩
    · show (heapSet _ _ _).length = h.length + 1
      unfold heapSet
      rw [List.length_set]
      exact hlen
    · intro r hr
      show heapGet (heapSet _ _ _) r = heapGet h r
      rw [heapGet_set_ne _ _ _ _ (by omega), hpres r hr]
    · show (heapGet (heapSet _ h.length _) h.length, _) = expandN prim mA mask (k + 1) _
      rw [heapGet_set_self _ _ _ (by omega)]
      show (_, (expandIter prim mA mask _).2) = expandIter prim mA mask (expandN prim mA mask k _)
      rw [← hcell]

/-- C10: `_expand_labels` never mutates its argument — after the call the
labels array the caller passed in is unchanged — and the returned array is
a freshly allocated one (a new reference, holding the pure
`_expand_labels` value), not an alias of the input. -/
theorem expand_labels_no_mutation {n : ℕ} (prim : (Fin n → ℕ) → Fin n → ℕ) (h : Heap n)
    (labelsRef : ℕ) (distance mA : ℕ) (mask : Option (Fin n → ℕ))
    (href : labelsRef < h.length) :
    heapGet (expandLabelsStore prim h labelsRef distance mA mask).1 labelsRef =
      heapGet h labelsRef ∧
    (expandLabelsStore prim h labelsRef distance mA mask).2 ≠ labelsRef ∧
    (expandLabelsStore prim h labelsRef distance mA mask).2 = h.length ∧
    heapGet (expandLabelsStore prim h labelsRef distance mA mask).1
        (expandLabelsStore prim h labelsRef distance mA mask).2 =
      expandLabels prim (heapGet h labelsRef) distance mA mask := by
  obtain ⟨hlen, hpres, hcell⟩ := expandStoreLoop_spec prim mA mask h labelsRef distance
  have h1 : (expandLabelsStore prim h labelsRef distance mA mask).1 =
      heapSet (expandStoreLoop prim mA mask h.length distance
          (h ++ [heapGet h labelsRef], [])).1 h.length
        (restoreSaved
          (heapGet (expandStoreLoop prim mA mask h.length distance
            (h ++ [heapGet h labelsRef], [])).1 h.length)
          (expandStoreLoop prim mA mask h.length distance
            (h ++ [heapGet h labelsRef], [])).2) := rfl
  have h2 : (expandLabelsStore prim h labelsRef distance mA mask).2 = h.length := rfl
  refine ⟨?_, by omega, h2, ?_⟩
  · rw [h1, heapGet_set_ne _ _ _ _ (by omega), hpres labelsRef href]
  · rw [h1, h2, heapGet_set_self _ _ _ (by omega)]
    unfold expandLabels
    rw [show heapGet (expandStoreLoop prim mA mask h.length distance
        (h ++ [heapGet h labelsRef], [])).1 h.length =
        (expandN prim mA mask distance (heapGet h labelsRef, [])).1 from
      congrArg Prod.fst hcell]
    rw [show (expandStoreLoop prim mA mask h.length distance
        (h ++ [heapGet h labelsRef], [])).2 =
        (expandN prim mA mask distance (heapGet h labelsRef, [])).2 from
      congrArg Prod.snd hcell]

/-- Witness for `expand_labels_no_mutation` on a concrete one-cell heap. -/
theorem expand_labels_no_mutation_witness :
    heapGet (expandLabelsStore rowExpand [![1, 0, 2]] 0 1 2 none).1 0 =
      heapGet ([![1, 0, 2]] : Heap 3) 0 ∧
    (expandLabelsStore rowExpand ([![1, 0, 2]] : Heap 3) 0 1 2 none).2 ≠ 0 := by
  have h := expand_labels_no_mutation rowExpand ([![1, 0, 2]] : Heap 3) 0 1 2 none
    (by norm_num)
  exact ⟨h.1, h.2.1⟩

end Spateo
